import Mathlib

/-!
Verification development for the `tuber` entity-component storage engine
(crates `tuber-ecs`, `tuber-core`).

Two storage models coexist in the repository and both are embedded here:

* the archetype model (`crates/tuber-ecs/src/lib.rs`, `archetype.rs`,
  `component_bundle.rs`): column-major raw byte buffers, one column per
  component type of a signature, grown geometrically;
* the bitset-column model (`crates/tuber-ecs/src/ecs.rs`, `query.rs`,
  `bitset.rs`, `system.rs`): one `ComponentStore` per component type with a
  presence bitset and a `Vec<Option<..>>` of values.

Machine integers (`usize`) are embedded as `Nat`; the one place where
two's-complement behaviour matters, `align_value`, is embedded with the
exact bit-level formula reduced modulo `2^64`.  Raw memory is embedded as a
function from byte addresses to byte values; uninitialized memory produced
by `alloc` is an arbitrary parameter (`junk`) so that nothing is assumed
about fresh buffer contents.  Type identities (`TypeId`) are embedded as
`Nat`, and type-erased component values of the archetype model as their
byte representation (`List Nat`).
-/

namespace Tuber

/-- The number of values of `usize` (64-bit platform). -/
def USIZE : Nat := 2 ^ 64

/-- Two's-complement bitwise NOT on `usize`: `!x = 2^64 - 1 - x` for
`x < 2^64`. -/
def usizeNot (x : Nat) : Nat := USIZE - 1 - x % USIZE

/-- `align_value` from `archetype.rs` (identical in `lib.rs`):

    fn align_value(value: usize, alignment: usize) -> usize {
        value + alignment - 1 & !(alignment - 1)
    }

`value + alignment - 1` is computed in wrapping `usize` arithmetic, hence
the reduction modulo `2^64`.  `alignment` is the alignment of a Rust
`Layout`, hence at least 1, so the Rust `alignment - 1` never wraps and
`Nat` truncated subtraction agrees with it. -/
def alignValue (value alignment : Nat) : Nat :=
  ((value + alignment - 1) % USIZE) &&& usizeNot (alignment - 1)

/-- Rounding up to a multiple of `a`, the specification-level description
of `align_value` ("rounding the running total up to that type's
alignment"). -/
def roundUpTo (value alignment : Nat) : Nat :=
  alignment * ((value + alignment - 1) / alignment)

theorem usize_pos : 0 < USIZE := by decide

/-- The mask `!(2^k - 1)` on 64-bit words is `2^64 - 2^k`. -/
theorem usizeNot_two_pow_sub_one {k : Nat} (hk : k < 64) :
    usizeNot (2 ^ k - 1) = USIZE - 2 ^ k := by
  have h1 : (0 : Nat) < 2 ^ k := Nat.two_pow_pos k
  have h2 : 2 ^ k ≤ USIZE := by
    unfold USIZE
    exact Nat.pow_le_pow_right (by decide) (Nat.le_of_lt hk)
  have hmod : (2 ^ k - 1) % USIZE = 2 ^ k - 1 :=
    Nat.mod_eq_of_lt (by omega)
  unfold usizeNot
  rw [hmod]
  omega

/-- Key bit-arithmetic fact: for `x < 2^64` and a power-of-two mask,
`x &&& (2^64 - 2^k)` clears the low `k` bits of `x`. -/
theorem and_high_mask_eq {x k : Nat} (hk : k < 64) (hx : x < USIZE) :
    x &&& (USIZE - 2 ^ k) = 2 ^ k * (x / 2 ^ k) := by
  have hsplit : 2 ^ k * 2 ^ (64 - k) = USIZE := by
    unfold USIZE
    rw [← pow_add]
    congr 1
    omega
  have hmask : USIZE - 2 ^ k = 2 ^ k * (2 ^ (64 - k) - 1) := by
    rw [Nat.mul_sub_one, hsplit]
  apply Nat.eq_of_testBit_eq
  intro i
  rw [Nat.testBit_and, hmask, Nat.testBit_mul_pow_two, Nat.testBit_mul_pow_two,
    Nat.testBit_two_pow_sub_one, ← Nat.shiftRight_eq_div_pow, Nat.testBit_shiftRight]
  by_cases hik : k ≤ i
  · have hki : k + (i - k) = i := by omega
    rw [hki]
    by_cases hi64 : i < 64
    · have h3 : i - k < 64 - k := by omega
      simp [ge_iff_le, hik, h3]
    · have hge : USIZE ≤ 2 ^ i := by
        unfold USIZE
        exact Nat.pow_le_pow_right (by decide) (by omega)
      have hxi : x.testBit i = false :=
        Nat.testBit_lt_two_pow (Nat.lt_of_lt_of_le hx hge)
      have h3 : ¬ (i - k < 64 - k) := by omega
      simp [hxi, h3]
  · simp [ge_iff_le, hik]

/-- `align_value(v, 2^k)` is exactly `v` rounded up to a multiple of
`2^k`, provided the wrapping addition does not actually wrap. -/
theorem alignValue_eq_roundUpTo {v k : Nat} (hk : k < 64)
    (hov : v + 2 ^ k - 1 < USIZE) :
    alignValue v (2 ^ k) = roundUpTo v (2 ^ k) := by
  have h1 : (1 : Nat) ≤ 2 ^ k := Nat.one_le_two_pow
  unfold alignValue roundUpTo
  rw [usizeNot_two_pow_sub_one hk, Nat.mod_eq_of_lt hov]
  exact and_high_mask_eq hk hov

theorem roundUpTo_le (v a : Nat) : roundUpTo v a ≤ v + a - 1 :=
  Nat.mul_div_le (v + a - 1) a

theorem le_roundUpTo {v a : Nat} (ha : 0 < a) : v ≤ roundUpTo v a := by
  unfold roundUpTo
  have h1 := Nat.div_add_mod (v + a - 1) a
  have h2 := Nat.mod_lt (v + a - 1) ha
  omega

theorem dvd_roundUpTo (v a : Nat) : a ∣ roundUpTo v a := Dvd.intro _ rfl

theorem roundUpTo_eq_of_dvd {v a : Nat} (ha : 0 < a) (h : a ∣ v) :
    roundUpTo v a = v := by
  obtain ⟨m, rfl⟩ := h
  unfold roundUpTo
  rw [Nat.add_sub_assoc (by omega) (a * m), Nat.mul_add_div ha, Nat.div_eq_of_lt (by omega),
    Nat.add_zero]

/-! ## The archetype storage model

Embeds `crates/tuber-ecs/src/lib.rs` (struct `Archetype`, struct `Ecs`,
trait `ComponentBundle`); `archetype.rs` duplicates the same `Archetype`
code.  The raw buffer `data: NonNull<u8>` is a function from byte address
to byte value; `stored_entities: HashMap<Entity, usize>` is a function
from entity id to optional row. -/

namespace Arch

/-- `TypeMetadata` (`archetype.rs`): the `Layout` of one component type,
i.e. its byte size and alignment. -/
structure TypeMetadata where
  size : Nat
  align : Nat
deriving Repr, DecidableEq

/-- `struct Archetype` (`lib.rs` lines 69-77). -/
structure Archetype where
  /-- the raw buffer; byte value at each address -/
  data : Nat → Nat
  capacity : Nat
  entityCount : Nat
  size : Nat
  typesMetadata : List TypeMetadata
  typeOffsets : List Nat
  /-- `stored_entities`: entity id to row -/
  storedEntities : Nat → Option Nat

/-- `Archetype::new`: records the column order, allocates nothing
(`data` is dangling; it is never read before the first `grow`). -/
def Archetype.new (typesMetadata : List TypeMetadata) : Archetype where
  data := fun _ => 0
  capacity := 0
  entityCount := 0
  size := 0
  typesMetadata := typesMetadata
  typeOffsets := List.replicate typesMetadata.length 0
  storedEntities := fun _ => none

/-- The loop body of `Archetype::compute_required_size_for_capacity`:
running `size` is aligned to the type, recorded as the type's offset,
then advanced by `size_of * capacity`.  Offsets are returned in
signature order. -/
def computeRequiredGo (capacity sz : Nat) : List TypeMetadata → Nat × List Nat
  | [] => (sz, [])
  | tm :: rest =>
    let off := alignValue sz tm.align
    let r := computeRequiredGo capacity (off + tm.size * capacity) rest
    (r.1, off :: r.2)

/-- `Archetype::compute_required_size_for_capacity`: total buffer size and
per-type column offsets for a given capacity. -/
def computeRequiredSizeForCapacity (typesMetadata : List TypeMetadata)
    (capacity : Nat) : Nat × List Nat :=
  computeRequiredGo capacity 0 typesMetadata

/-- `Archetype::data_alignment`: the first type's alignment, or 1 for an
empty signature (`self.types_metadata.first().map_or(1, ..)`). -/
def dataAlignment (typesMetadata : List TypeMetadata) : Nat :=
  match typesMetadata.head? with
  | some tm => tm.align
  | none => 1

/-- `std::ptr::copy_nonoverlapping(src + srcOff, dst + dstOff, count)`
from the old buffer `src` into the new buffer `dst`. -/
def copyNonoverlapping (src : Nat → Nat) (srcOff : Nat) (dst : Nat → Nat)
    (dstOff count : Nat) : Nat → Nat :=
  fun addr =>
    if dstOff ≤ addr ∧ addr < dstOff + count then src (srcOff + (addr - dstOff))
    else dst addr

/-- The copy loop of `Archetype::grow`: for each type (paired with its old
and new offset, in signature order) copy `entity_count * size` bytes from
the old buffer into the new one. -/
def copyColumnsGo (entityCount : Nat) (src : Nat → Nat) :
    List (TypeMetadata × Nat × Nat) → (Nat → Nat) → Nat → Nat
  | [], dst => dst
  | (tm, offs) :: rest, dst =>
    copyColumnsGo entityCount src rest
      (copyNonoverlapping src offs.1 dst offs.2 (entityCount * tm.size))

/-- `Archetype::grow(new_capacity)`.  `junk` is the (unspecified) contents
of the freshly allocated buffer; when a previous buffer existed
(`capacity != 0`) each column's used bytes are copied over it. -/
def grow (junk : Nat → Nat) (a : Archetype) (newCapacity : Nat) : Archetype :=
  let computed := computeRequiredSizeForCapacity a.typesMetadata newCapacity
  let newData :=
    if a.capacity ≠ 0 then
      copyColumnsGo a.entityCount a.data
        (a.typesMetadata.zip (a.typeOffsets.zip computed.2)) junk
    else junk
  { a with
    data := newData
    typeOffsets := computed.2
    capacity := newCapacity
    size := computed.1 }

/-- `Archetype::component_ptr`: `type_offsets[type_index] + data_index *
data_size` (as an offset from the buffer base). -/
def componentPtr (a : Archetype) (dataIndex dataSize typeIndex : Nat) : Nat :=
  a.typeOffsets.getD typeIndex 0 + dataIndex * dataSize

/-- `std::ptr::copy(data, ptr, count)`: overwrite `count` bytes starting
at `ptr` with the bytes of `bytes`. -/
def writeBytesFn (d : Nat → Nat) (ptr count : Nat) (bytes : List Nat) : Nat → Nat :=
  fun addr =>
    if ptr ≤ addr ∧ addr < ptr + count then bytes.getD (addr - ptr) 0
    else d addr

/-- `Archetype::write_component`. -/
def writeComponent (a : Archetype) (typeIndex dataIndex dataSize : Nat)
    (bytes : List Nat) : Archetype :=
  { a with
    data := writeBytesFn a.data (componentPtr a dataIndex dataSize typeIndex)
      dataSize bytes }

/-- `Archetype::read_component::<C>` at the byte level: the `data_size`
bytes that the returned `&C` points at. -/
def readComponentBytes (a : Archetype) (typeIndex dataIndex dataSize : Nat) :
    List Nat :=
  (List.range dataSize).map fun j =>
    a.data (componentPtr a dataIndex dataSize typeIndex + j)

/-- The growth branch of `Archetype::allocate_storage_for_entity`: when
the archetype is full, grow (0 to 1, else doubling via `capacity << 1`);
otherwise leave it alone. -/
def growIfFull (junk : Nat → Nat) (a : Archetype) : Archetype :=
  if a.entityCount = a.capacity then
    if a.capacity = 0 then grow junk a 1 else grow junk a (a.capacity <<< 1)
  else a

/-- `Archetype::allocate_storage_for_entity`: grow when full, record the
entity's row (`stored_entities.insert(entity, entity_count)`), bump
`entity_count` and return the row. -/
def allocateStorageForEntity (junk : Nat → Nat) (a : Archetype) (entity : Nat) :
    Archetype × Nat :=
  let a1 := growIfFull junk a
  ({ a1 with
      storedEntities := fun e =>
        if e = entity then some a1.entityCount else a1.storedEntities e
      entityCount := a1.entityCount + 1 },
    a1.entityCount)

/-- `Archetype::data_index_for_entity`: `stored_entities[&entity]`.
`none` is the panic on an absent key. -/
def dataIndexForEntity (a : Archetype) (entity : Nat) : Option Nat :=
  a.storedEntities entity

/-- Result of a call that can panic: `.ok` is normal return, `.panic`
models abrupt termination (`unwrap` on `None`). -/
inductive Outcome (α : Type) where
  | ok (val : α) : Outcome α
  | panic : Outcome α
deriving Repr, DecidableEq

/-- A concrete component-bundle value `(C0, .., Cn-1)` of the
`ComponentBundle` tuple implementations (`lib.rs` lines 224-274), arity
1..6: the declaration-ordered type ids (`type_ids`), the per-element
`Layout`s (`metadata`) and each element's byte representation. -/
structure ComponentBundleVal where
  typeIds : List Nat
  metadata : List TypeMetadata
  values : List (List Nat)
deriving Repr, DecidableEq

/-- A bundle value is well-formed when the three lists correspond and each
value has exactly its type's byte size (guaranteed in Rust by
`size_of::<T>` / `Layout::new::<T>`). -/
def ComponentBundleVal.wf (b : ComponentBundleVal) : Prop :=
  b.typeIds.length = b.metadata.length ∧
  b.values.length = b.metadata.length ∧
  ∀ i, i < b.metadata.length →
    (b.values.getD i []).length = (b.metadata.getD i ⟨0, 1⟩).size

/-- The body of `ComponentBundle::write_into`: one `write_component` per
tuple element, with `type_index` equal to the element's tuple position
`i` and `data_size` equal to `size_of::<T>`. -/
def writeIntoGo (a : Archetype) (dataIndex i : Nat) :
    List (TypeMetadata × List Nat) → Archetype
  | [] => a
  | (tm, bytes) :: rest =>
    writeIntoGo (writeComponent a i dataIndex tm.size bytes) dataIndex (i + 1) rest

/-- `ComponentBundle::write_into(archetype, data_index)`. -/
def ComponentBundleVal.writeInto (b : ComponentBundleVal) (a : Archetype)
    (dataIndex : Nat) : Archetype :=
  writeIntoGo a dataIndex 0 (b.metadata.zip b.values)

/-- `ComponentBundle::read_entity`: resolve the entity's row (panicking
when absent), then read each tuple element by its position.  `sizes` are
the `size_of::<T>` of the bundle's element types. -/
def Archetype.readEntity (a : Archetype) (sizes : List Nat) (entity : Nat) :
    Outcome (List (List Nat)) :=
  match a.storedEntities entity with
  | none => .panic
  | some dataIndex =>
    .ok ((List.range sizes.length).map fun i =>
      readComponentBytes a i dataIndex (sizes.getD i 0))

/-- `struct Ecs` (`lib.rs` lines 9-12): the signature-to-archetype map
(`ArchetypeStore = HashMap<Box<[TypeId]>, Archetype>`, embedded as an
association list) and the next-entity counter. -/
structure Ecs where
  archetypeStore : List (List Nat × Archetype)
  nextEntity : Nat

/-- `Ecs::new()`: empty store, `next_entity = 1`. -/
def Ecs.new : Ecs where
  archetypeStore := []
  nextEntity := 1

/-- `Ecs::entity_count()`: `next_entity - 1`. -/
def Ecs.entityCount (e : Ecs) : Nat := e.nextEntity - 1

/-- `HashMap::entry(key).or_insert(..)` write-back: replace the entry for
`key`, or append it when absent. -/
def storeInsertOrUpdate (store : List (List Nat × Archetype)) (key : List Nat)
    (arch : Archetype) : List (List Nat × Archetype) :=
  match store with
  | [] => [(key, arch)]
  | (k, a) :: rest =>
    if k = key then (k, arch) :: rest
    else (k, a) :: storeInsertOrUpdate rest key arch

/-- Association-list lookup for the archetype store (`HashMap::get`). -/
def storeGet (store : List (List Nat × Archetype)) (key : List Nat) :
    Option Archetype :=
  match store with
  | [] => none
  | (k, a) :: rest => if k = key then some a else storeGet rest key

/-- `Ecs::insert_one`: find-or-create the archetype for
`bundle.type_ids()`, allocate a row, `write_into`, return the entity id
and bump the counter.  (The Rust signature returns `Result` but the body
cannot fail; allocation failure is fatal and unmodeled.) -/
def Ecs.insertOne (junk : Nat → Nat) (e : Ecs) (b : ComponentBundleVal) :
    Ecs × Nat :=
  let entity := e.nextEntity
  let arch0 :=
    match storeGet e.archetypeStore b.typeIds with
    | some a => a
    | none => Archetype.new b.metadata
  let alloc := allocateStorageForEntity junk arch0 entity
  let arch2 := b.writeInto alloc.1 alloc.2
  (⟨storeInsertOrUpdate e.archetypeStore b.typeIds arch2, e.nextEntity + 1⟩,
    entity)

/-- `Ecs::insert`: `insert_one` for each bundle in order (each insert gets
its own fresh-buffer contents `junk`). -/
def Ecs.insertSeq (e : Ecs) : List ((Nat → Nat) × ComponentBundleVal) → Ecs
  | [] => e
  | (junk, b) :: rest => Ecs.insertSeq (Ecs.insertOne junk e b).1 rest

/-- `Ecs::entity::<CB>(entity)`: `self.archetype_store.get(&CB::type_ids())
.unwrap()` followed by `CB::read_entity`.  A missing signature is an
`Option::unwrap` panic (`tuber_core::Error` has no constructors, so no
`Err` value can ever be produced). -/
def Ecs.entity (e : Ecs) (typeIds sizes : List Nat) (ent : Nat) :
    Outcome (List (List Nat)) :=
  match storeGet e.archetypeStore typeIds with
  | none => .panic
  | some a => a.readEntity sizes ent

/-- `Ecs::entity_mut::<CB>(entity)` followed by an assignment to one field
of one returned component reference: resolve the archetype and row exactly
as `entity_mut` does (panicking on a missing signature or entity), then
overwrite `fieldBytes.length` bytes at byte offset `fieldOff` inside
component `componentIndex` of the entity's row. -/
def Ecs.entityMutWriteField (e : Ecs) (typeIds : List Nat)
    (ent componentIndex componentSize fieldOff : Nat) (fieldBytes : List Nat) :
    Outcome Ecs :=
  match storeGet e.archetypeStore typeIds with
  | none => .panic
  | some a =>
    match a.storedEntities ent with
    | none => .panic
    | some dataIndex =>
      let ptr := componentPtr a dataIndex componentSize componentIndex
      let a2 := { a with
        data := writeBytesFn a.data (ptr + fieldOff) fieldBytes.length fieldBytes }
      .ok ⟨storeInsertOrUpdate e.archetypeStore typeIds a2, e.nextEntity⟩

/-! ### Layout arithmetic -/

/-- The layout computation with `align_value` replaced by mathematical
round-up; equal to `computeRequiredGo` for power-of-two alignments when
nothing overflows. -/
def idealGo (capacity sz : Nat) : List TypeMetadata → Nat × List Nat
  | [] => (sz, [])
  | tm :: rest =>
    let off := roundUpTo sz tm.align
    let r := idealGo capacity (off + tm.size * capacity) rest
    (r.1, off :: r.2)

/-- An upper bound on how much the running size can grow while laying out
`ts` at a given capacity. -/
def layoutBound (capacity : Nat) : List TypeMetadata → Nat
  | [] => 0
  | tm :: rest => tm.align + tm.size * capacity + layoutBound capacity rest

/-- What Rust's `Layout::new::<T>()` guarantees about an alignment: a
power of two (and on a 64-bit target below `2^64`). -/
def WfType (tm : TypeMetadata) : Prop := ∃ k, k < 64 ∧ tm.align = 2 ^ k

def WfTypes (types : List TypeMetadata) : Prop := ∀ tm ∈ types, WfType tm

/-- The layout computation for `types` at `capacity` stays strictly below
`2^64`, so no `usize` addition wraps. -/
def NoOverflow (types : List TypeMetadata) (capacity : Nat) : Prop :=
  layoutBound capacity types < USIZE

theorem wfType_align_pos {tm : TypeMetadata} (h : WfType tm) : 0 < tm.align := by
  obtain ⟨k, _, hk⟩ := h
  exact hk ▸ Nat.two_pow_pos k

theorem computeRequiredGo_eq_ideal (cap : Nat) :
    ∀ (ts : List TypeMetadata), WfTypes ts → ∀ sz : Nat,
      sz + layoutBound cap ts < USIZE →
      computeRequiredGo cap sz ts = idealGo cap sz ts := by
  intro ts
  induction ts with
  | nil => intro _ sz _; rfl
  | cons tm rest ih =>
    intro hwf sz hb
    obtain ⟨k, hk, halign⟩ := hwf tm (List.mem_cons_self _ _)
    have hpos : 0 < tm.align := wfType_align_pos ⟨k, hk, halign⟩
    have hb' : layoutBound cap (tm :: rest) =
        tm.align + tm.size * cap + layoutBound cap rest := rfl
    have hov : sz + tm.align - 1 < USIZE := by omega
    have hav : alignValue sz tm.align = roundUpTo sz tm.align := by
      rw [halign]
      rw [halign] at hov
      exact alignValue_eq_roundUpTo hk hov
    have hle : roundUpTo sz tm.align ≤ sz + tm.align - 1 := roundUpTo_le _ _
    simp only [computeRequiredGo, idealGo, hav]
    rw [ih (fun tm' h' => hwf tm' (List.mem_cons_of_mem _ h')) _ (by omega)]

theorem computeRequiredGo_offsets_length (cap : Nat) :
    ∀ (ts : List TypeMetadata) (sz : Nat),
      (computeRequiredGo cap sz ts).2.length = ts.length := by
  intro ts
  induction ts with
  | nil => intro _; rfl
  | cons tm rest ih =>
    intro sz
    simp only [computeRequiredGo, List.length_cons, ih]

theorem idealGo_offsets_length (cap : Nat) :
    ∀ (ts : List TypeMetadata) (sz : Nat),
      (idealGo cap sz ts).2.length = ts.length := by
  intro ts
  induction ts with
  | nil => intro _; rfl
  | cons tm rest ih =>
    intro sz
    simp only [idealGo, List.length_cons, ih]

/-- Start address of column `i` in the ideal layout (the total size when
`i` is past the last column). -/
def colStart (capacity : Nat) : Nat → List TypeMetadata → Nat → Nat
  | sz, [], _ => sz
  | sz, tm :: _, 0 => roundUpTo sz tm.align
  | sz, tm :: rest, i + 1 =>
    colStart capacity (roundUpTo sz tm.align + tm.size * capacity) rest i

/-- Past the last column, `colStart` is constant (the total size). -/
theorem colStart_past (cap : Nat) :
    ∀ (ts : List TypeMetadata) (j : Nat), ts.length ≤ j →
      ∀ sz : Nat, colStart cap sz ts j = colStart cap sz ts ts.length := by
  intro ts
  induction ts with
  | nil => intro j _ sz; cases j <;> rfl
  | cons tm rest ih =>
    intro j hj sz
    match j with
    | jj + 1 =>
      show colStart cap _ rest jj = colStart cap _ rest rest.length
      exact ih jj (by simpa using hj) _

theorem le_colStart (cap : Nat) :
    ∀ (ts : List TypeMetadata), (∀ tm ∈ ts, 0 < tm.align) →
      ∀ (sz i : Nat), sz ≤ colStart cap sz ts i := by
  intro ts
  induction ts with
  | nil => intro _ sz i; cases i <;> exact Nat.le_refl _
  | cons tm rest ih =>
    intro hal sz i
    have hpos : 0 < tm.align := hal tm (List.mem_cons_self _ _)
    match i with
    | 0 => exact le_roundUpTo hpos
    | i + 1 =>
      calc sz ≤ roundUpTo sz tm.align := le_roundUpTo hpos
        _ ≤ roundUpTo sz tm.align + tm.size * cap := Nat.le_add_right _ _
        _ ≤ _ := ih (fun tm' h' => hal tm' (List.mem_cons_of_mem _ h')) _ i

theorem colStart_step (cap : Nat) :
    ∀ (ts : List TypeMetadata), (∀ tm ∈ ts, 0 < tm.align) →
      ∀ (sz i : Nat), i < ts.length →
        colStart cap sz ts i + (ts.getD i ⟨0, 1⟩).size * cap ≤
          colStart cap sz ts (i + 1) := by
  intro ts
  induction ts with
  | nil => intro _ sz i h; simp at h
  | cons tm rest ih =>
    intro hal sz i _
    match i with
    | 0 =>
      show roundUpTo sz tm.align + tm.size * cap ≤
        colStart cap (roundUpTo sz tm.align + tm.size * cap) rest 0
      exact le_colStart cap rest (fun tm' h' => hal tm' (List.mem_cons_of_mem _ h')) _ 0
    | i + 1 =>
      by_cases hir : i < rest.length
      · exact ih (fun tm' h' => hal tm' (List.mem_cons_of_mem _ h')) _ i hir
      · have h2 : (rest.getD i ⟨0, 1⟩) = ⟨0, 1⟩ := List.getD_eq_default _ _ (by omega)
        show colStart cap _ rest i + (rest.getD i ⟨0, 1⟩).size * cap ≤ colStart cap _ rest (i + 1)
        rw [h2, colStart_past cap rest i (by omega), colStart_past cap rest (i + 1) (by omega)]
        simp

theorem colStart_mono_succ (cap : Nat) (ts : List TypeMetadata)
    (hal : ∀ tm ∈ ts, 0 < tm.align) (sz i : Nat) :
    colStart cap sz ts i ≤ colStart cap sz ts (i + 1) := by
  induction ts generalizing sz i with
  | nil => cases i <;> exact Nat.le_refl _
  | cons tm rest ih =>
    match i with
    | 0 =>
      show roundUpTo sz tm.align ≤ colStart cap (roundUpTo sz tm.align + tm.size * cap) rest 0
      calc roundUpTo sz tm.align ≤ roundUpTo sz tm.align + tm.size * cap := Nat.le_add_right _ _
        _ ≤ _ := le_colStart cap rest (fun tm' h' => hal tm' (List.mem_cons_of_mem _ h')) _ 0
    | i + 1 => exact ih (fun tm' h' => hal tm' (List.mem_cons_of_mem _ h')) _ i

theorem colStart_mono (cap : Nat) (ts : List TypeMetadata)
    (hal : ∀ tm ∈ ts, 0 < tm.align) (sz : Nat) {i j : Nat} (hij : i ≤ j) :
    colStart cap sz ts i ≤ colStart cap sz ts j := by
  induction j with
  | zero => cases Nat.le_zero.mp hij; exact Nat.le_refl _
  | succ j ih =>
    rcases Nat.lt_or_ge i (j + 1) with h | h
    · exact Nat.le_trans (ih (by omega)) (colStart_mono_succ cap ts hal sz j)
    · have : i = j + 1 := by omega
      subst this
      exact Nat.le_refl _

/-- `colStart` names the entries of the ideal offset list (defaulting to
the total size past the end). -/
theorem colStart_eq_getD (cap : Nat) :
    ∀ (ts : List TypeMetadata) (sz i : Nat),
      colStart cap sz ts i =
        (idealGo cap sz ts).2.getD i (idealGo cap sz ts).1 := by
  intro ts
  induction ts with
  | nil => intro sz i; cases i <;> rfl
  | cons tm rest ih =>
    intro sz i
    match i with
    | 0 => simp [colStart, idealGo]
    | i + 1 =>
      show colStart cap _ rest i = _
      rw [ih]
      simp [idealGo]

/-- Column separation: column `i` together with `capacity` elements ends
no later than any later column starts (or than the total size). -/
theorem colStart_gap (cap : Nat) (ts : List TypeMetadata)
    (hal : ∀ tm ∈ ts, 0 < tm.align) (sz : Nat) {i j : Nat} (hi : i < ts.length)
    (hij : i < j) :
    colStart cap sz ts i + (ts.getD i ⟨0, 1⟩).size * cap ≤ colStart cap sz ts j :=
  Nat.le_trans (colStart_step cap ts hal sz i hi)
    (colStart_mono cap ts hal sz hij)

/-! ### Copy-loop characterization and growth correctness -/

/-- Default triple for indexing the copy-loop worklist. -/
def trDefault : TypeMetadata × Nat × Nat := (⟨0, 1⟩, 0, 0)

theorem zip3_getD (ts : List TypeMetadata) (xs ys : List Nat) :
    ∀ t : Nat, xs.length = ts.length → ys.length = ts.length → t < ts.length →
      (ts.zip (xs.zip ys)).getD t trDefault =
        (ts.getD t ⟨0, 1⟩, xs.getD t 0, ys.getD t 0) := by
  induction ts generalizing xs ys with
  | nil => intro t _ _ ht; simp at ht
  | cons tm rest ih =>
    intro t h1 h2 ht
    match xs, h1 with
    | x :: xs, h1 =>
      match ys, h2 with
      | y :: ys, h2 =>
        match t with
        | 0 => rfl
        | t + 1 =>
          simp only [List.zip_cons_cons, List.getD_cons_succ]
          exact ih xs ys t (by simpa using h1) (by simpa using h2) (by simpa using ht)

theorem zip3_length (ts : List TypeMetadata) (xs ys : List Nat)
    (h1 : xs.length = ts.length) (h2 : ys.length = ts.length) :
    (ts.zip (xs.zip ys)).length = ts.length := by
  simp [h1, h2]

/-- Whether `addr` falls in the destination range of one copy step. -/
def inDstRange (cnt : Nat) (tr : TypeMetadata × Nat × Nat) (addr : Nat) : Prop :=
  tr.2.2 ≤ addr ∧ addr < tr.2.2 + cnt * tr.1.size

theorem copyColumnsGo_untouched (cnt : Nat) (src : Nat → Nat) :
    ∀ (triples : List (TypeMetadata × Nat × Nat)) (dst : Nat → Nat) (addr : Nat),
      (∀ tr ∈ triples, ¬ inDstRange cnt tr addr) →
      copyColumnsGo cnt src triples dst addr = dst addr := by
  intro triples
  induction triples with
  | nil => intro dst addr _; rfl
  | cons tr rest ih =>
    intro dst addr h
    obtain ⟨tm, off1, off2⟩ := tr
    show copyColumnsGo cnt src rest _ addr = _
    rw [ih _ addr (fun tr' h' => h tr' (List.mem_cons_of_mem _ h'))]
    have hni : ¬ (off2 ≤ addr ∧ addr < off2 + cnt * tm.size) :=
      h _ (List.mem_cons_self _ _)
    simp only [copyNonoverlapping, if_neg hni]

/-- Value written by the copy loop: when `addr` lies in the destination
range of step `i` and of no later step, the final byte comes from step
`i`'s source range. -/
theorem copyColumnsGo_at (cnt : Nat) (src : Nat → Nat) :
    ∀ (triples : List (TypeMetadata × Nat × Nat)) (dst : Nat → Nat)
      (addr i : Nat), i < triples.length →
      inDstRange cnt (triples.getD i trDefault) addr →
      (∀ j, i < j → j < triples.length →
        ¬ inDstRange cnt (triples.getD j trDefault) addr) →
      copyColumnsGo cnt src triples dst addr =
        src ((triples.getD i trDefault).2.1 +
          (addr - (triples.getD i trDefault).2.2)) := by
  intro triples
  induction triples with
  | nil => intro dst addr i hi; simp at hi
  | cons tr rest ih =>
    intro dst addr i hi hin hlater
    match i with
    | 0 =>
      obtain ⟨tm, off1, off2⟩ := tr
      show copyColumnsGo cnt src rest _ addr = _
      rw [copyColumnsGo_untouched cnt src rest _ addr
        (fun tr' h' => by
          obtain ⟨j, hj, rfl⟩ := List.mem_iff_getElem.mp h'
          have := hlater (j + 1) (by omega) (by simpa using hj)
          rwa [List.getD_cons_succ, List.getD_eq_getElem _ _ hj] at this)]
      have hin0 : off2 ≤ addr ∧ addr < off2 + cnt * tm.size := hin
      simp only [copyNonoverlapping, if_pos hin0]
      rfl
    | i + 1 =>
      obtain ⟨tm, off1, off2⟩ := tr
      show copyColumnsGo cnt src rest _ addr = _
      rw [ih _ addr i (by simpa using hi) (by simpa using hin)
        (fun j hj hjl => by
          have := hlater (j + 1) (by omega) (by simpa using hjl)
          rwa [List.getD_cons_succ] at this)]
      rfl

/-- Growth correctness at the byte level (`Archetype::grow`): with
power-of-two alignments, no layout overflow at the new capacity, a live
buffer, and the used row count not exceeding the new capacity, every byte
of every used row of every column reads back unchanged after the
reallocation. -/
theorem grow_read_eq (junk : Nat → Nat) (a : Archetype) (newCap t r : Nat)
    (hlen : a.typeOffsets.length = a.typesMetadata.length)
    (hwf : WfTypes a.typesMetadata)
    (hov : NoOverflow a.typesMetadata newCap)
    (hcap0 : a.capacity ≠ 0)
    (hcnt : a.entityCount ≤ newCap)
    (ht : t < a.typesMetadata.length) (hr : r < a.entityCount) :
    readComponentBytes (grow junk a newCap) t r
        ((a.typesMetadata.getD t ⟨0, 1⟩).size) =
      readComponentBytes a t r ((a.typesMetadata.getD t ⟨0, 1⟩).size) := by
  set ts := a.typesMetadata with hts
  set szt := (ts.getD t ⟨0, 1⟩).size with hszt
  have hal : ∀ tm ∈ ts, 0 < tm.align := fun tm h => wfType_align_pos (hwf tm h)
  have hid : computeRequiredGo newCap 0 ts = idealGo newCap 0 ts :=
    computeRequiredGo_eq_ideal newCap ts hwf 0 (by simpa [NoOverflow] using hov)
  set newOffs := (computeRequiredSizeForCapacity ts newCap).2 with hnoffs
  have hnlen : newOffs.length = ts.length := computeRequiredGo_offsets_length _ _ _
  have hcol : ∀ u, u < ts.length →
      newOffs.getD u 0 = colStart newCap 0 ts u := by
    intro u hu
    rw [colStart_eq_getD]
    have h1 : newOffs = (idealGo newCap 0 ts).2 := by
      rw [hnoffs]
      show (computeRequiredGo newCap 0 ts).2 = _
      rw [hid]
    rw [h1]
    have hu2 : u < (idealGo newCap 0 ts).2.length := by
      rw [idealGo_offsets_length]
      exact hu
    rw [List.getD_eq_getElem _ _ hu2, List.getD_eq_getElem _ _ hu2]
  have hgrow_data : (grow junk a newCap).data =
      copyColumnsGo a.entityCount a.data (ts.zip (a.typeOffsets.zip newOffs)) junk := by
    simp only [grow, if_pos hcap0]
  have hgrow_offs : (grow junk a newCap).typeOffsets = newOffs := rfl
  unfold readComponentBytes
  apply List.map_congr_left
  intro j hj
  have hjlt : j < szt := List.mem_range.mp hj
  rw [hgrow_data]
  have hptr : componentPtr (grow junk a newCap) r szt t =
      newOffs.getD t 0 + r * szt := by
    simp [componentPtr, hgrow_offs]
  rw [hptr]
  set addr := newOffs.getD t 0 + r * szt + j with haddr
  have hztri := zip3_getD ts a.typeOffsets newOffs t hlen hnlen ht
  have hzlen := zip3_length ts a.typeOffsets newOffs hlen hnlen
  have hrange : r * szt + j < a.entityCount * szt := by
    have h1 : r * szt + j < (r + 1) * szt := by
      have : (r + 1) * szt = r * szt + szt := by ring
      omega
    have h2 : (r + 1) * szt ≤ a.entityCount * szt :=
      Nat.mul_le_mul_right _ (by omega)
    omega
  rw [copyColumnsGo_at a.entityCount a.data _ junk addr t (by omega)
    (by
      rw [hztri]
      show newOffs.getD t 0 ≤ addr ∧
        addr < newOffs.getD t 0 + a.entityCount * (ts.getD t ⟨0, 1⟩).size
      rw [← hszt]
      omega)
    (fun u hu hul => by
      rw [zip3_getD ts a.typeOffsets newOffs u hlen hnlen (by omega)]
      intro hcontra
      have hlo : newOffs.getD u 0 ≤ addr := hcontra.1
      have hgap : colStart newCap 0 ts t + (ts.getD t ⟨0, 1⟩).size * newCap ≤
          colStart newCap 0 ts u := colStart_gap newCap ts hal 0 ht hu
      rw [← hcol t ht, ← hcol u (by omega)] at hgap
      have hcount : a.entityCount * szt ≤ szt * newCap := by
        rw [Nat.mul_comm szt newCap]
        exact Nat.mul_le_mul_right _ hcnt
      rw [← hszt] at hgap
      omega)]
  rw [hztri]
  show a.data (a.typeOffsets.getD t 0 + (addr - newOffs.getD t 0)) = _
  have haddr_sub : addr - newOffs.getD t 0 = r * szt + j := by omega
  have hfin : a.typeOffsets.getD t 0 + (r * szt + j) = componentPtr a r szt t + j := by
    simp only [componentPtr]
    omega
  rw [haddr_sub, hfin]

/-! ### Reachable archetype states -/

/-- One `Ecs::insert_one` as seen by a single archetype: allocate storage
for the entity (growing when full) and `write_into` the bundle at the
returned row. -/
def archInsertOne (junk : Nat → Nat) (a : Archetype) (entity : Nat)
    (b : ComponentBundleVal) : Archetype :=
  let alloc := allocateStorageForEntity junk a entity
  b.writeInto alloc.1 alloc.2

/-- A sequence of inserts into one archetype; each step carries the
fresh-buffer contents its potential `grow` would observe. -/
def archInsertSeq (a : Archetype) :
    List ((Nat → Nat) × Nat × ComponentBundleVal) → Archetype
  | [] => a
  | (junk, ent, b) :: rest => archInsertSeq (archInsertOne junk a ent b) rest

/-- Structural invariant of every archetype reachable by inserts. -/
structure ArchInv (types : List TypeMetadata) (a : Archetype) : Prop where
  types_eq : a.typesMetadata = types
  cnt_le : a.entityCount ≤ a.capacity
  offs_len : a.typeOffsets.length = types.length
  cap0 : a.capacity = 0 → a.entityCount = 0

theorem writeComponent_fields (a : Archetype) (ti di ds : Nat) (bytes : List Nat) :
    (writeComponent a ti di ds bytes).typesMetadata = a.typesMetadata ∧
    (writeComponent a ti di ds bytes).typeOffsets = a.typeOffsets ∧
    (writeComponent a ti di ds bytes).capacity = a.capacity ∧
    (writeComponent a ti di ds bytes).entityCount = a.entityCount ∧
    (writeComponent a ti di ds bytes).storedEntities = a.storedEntities :=
  ⟨rfl, rfl, rfl, rfl, rfl⟩

theorem writeIntoGo_fields :
    ∀ (l : List (TypeMetadata × List Nat)) (a : Archetype) (di i : Nat),
      (writeIntoGo a di i l).typesMetadata = a.typesMetadata ∧
      (writeIntoGo a di i l).typeOffsets = a.typeOffsets ∧
      (writeIntoGo a di i l).capacity = a.capacity ∧
      (writeIntoGo a di i l).entityCount = a.entityCount ∧
      (writeIntoGo a di i l).storedEntities = a.storedEntities := by
  intro l
  induction l with
  | nil => intro a di i; exact ⟨rfl, rfl, rfl, rfl, rfl⟩
  | cons p rest ih =>
    intro a di i
    obtain ⟨tm, bytes⟩ := p
    exact ih (writeComponent a i di tm.size bytes) di (i + 1)

theorem grow_fields (junk : Nat → Nat) (a : Archetype) (newCap : Nat) :
    (grow junk a newCap).typesMetadata = a.typesMetadata ∧
    (grow junk a newCap).typeOffsets =
      (computeRequiredSizeForCapacity a.typesMetadata newCap).2 ∧
    (grow junk a newCap).capacity = newCap ∧
    (grow junk a newCap).entityCount = a.entityCount ∧
    (grow junk a newCap).storedEntities = a.storedEntities :=
  ⟨rfl, rfl, rfl, rfl, rfl⟩

theorem archInv_new (types : List TypeMetadata) :
    ArchInv types (Archetype.new types) :=
  ⟨rfl, Nat.le_refl _, List.length_replicate _ _, fun _ => rfl⟩

theorem archInv_grow (types : List TypeMetadata) {a : Archetype}
    (h : ArchInv types a) (junk : Nat → Nat) {newCap : Nat}
    (hcap : a.entityCount ≤ newCap) :
    ArchInv types (grow junk a newCap) := by
  refine ⟨h.types_eq, ?_, ?_, ?_⟩
  · exact hcap
  · show (computeRequiredGo newCap 0 a.typesMetadata).2.length = types.length
    rw [computeRequiredGo_offsets_length, h.types_eq]
  · intro hc
    have hc2 : newCap = 0 := hc
    show a.entityCount = 0
    omega

/-- What `growIfFull` guarantees on an invariant-satisfying archetype:
fields preserved, used count unchanged, and room for one more row. -/
theorem growIfFull_spec (types : List TypeMetadata) {a : Archetype}
    (h : ArchInv types a) (junk : Nat → Nat) :
    (growIfFull junk a).typesMetadata = types ∧
    (growIfFull junk a).typeOffsets.length = types.length ∧
    (growIfFull junk a).entityCount = a.entityCount ∧
    (growIfFull junk a).entityCount < (growIfFull junk a).capacity := by
  unfold growIfFull
  by_cases hfull : a.entityCount = a.capacity
  · rw [if_pos hfull]
    by_cases hzero : a.capacity = 0
    · rw [if_pos hzero]
      have hc0 := h.cap0 hzero
      have hg := archInv_grow types h junk (show a.entityCount ≤ 1 by omega)
      refine ⟨hg.types_eq, hg.offs_len, rfl, ?_⟩
      show a.entityCount < 1
      omega
    · rw [if_neg hzero]
      have h2 : a.capacity <<< 1 = 2 * a.capacity := by
        rw [Nat.shiftLeft_eq]
        ring
      have hle := h.cnt_le
      have hg := archInv_grow types h junk
        (show a.entityCount ≤ a.capacity <<< 1 by omega)
      refine ⟨hg.types_eq, hg.offs_len, rfl, ?_⟩
      show a.entityCount < a.capacity <<< 1
      omega
  · rw [if_neg hfull]
    have := h.cnt_le
    exact ⟨h.types_eq, h.offs_len, rfl, by omega⟩

/-- The write loop preserves the archetype invariant (it only changes the
buffer contents). -/
theorem archInv_writeIntoGo (types : List TypeMetadata)
    (l : List (TypeMetadata × List Nat)) (a2 : Archetype) (di i : Nat)
    (h1 : a2.typesMetadata = types) (hl : a2.typeOffsets.length = types.length)
    (h3 : a2.entityCount ≤ a2.capacity) (h4 : a2.capacity ≠ 0) :
    ArchInv types (writeIntoGo a2 di i l) := by
  have hw := writeIntoGo_fields l a2 di i
  refine ⟨hw.1.trans h1, ?_, ?_, ?_⟩
  · rw [hw.2.2.2.1, hw.2.2.1]
    exact h3
  · rw [hw.2.1]
    exact hl
  · intro hc
    rw [hw.2.2.1] at hc
    exact absurd hc h4

theorem archInv_insertOne (types : List TypeMetadata) {a : Archetype}
    (h : ArchInv types a) (junk : Nat → Nat) (ent : Nat)
    (b : ComponentBundleVal) :
    ArchInv types (archInsertOne junk a ent b) := by
  have hs := growIfFull_spec types h junk
  have hroom := hs.2.2.2
  show ArchInv types (writeIntoGo
    { growIfFull junk a with
      storedEntities := fun e =>
        if e = ent then some (growIfFull junk a).entityCount
        else (growIfFull junk a).storedEntities e
      entityCount := (growIfFull junk a).entityCount + 1 }
    (growIfFull junk a).entityCount 0 (b.metadata.zip b.values))
  apply archInv_writeIntoGo
  · exact hs.1
  · exact hs.2.1
  · show (growIfFull junk a).entityCount + 1 ≤ (growIfFull junk a).capacity
    omega
  · show (growIfFull junk a).capacity ≠ 0
    omega

theorem archInv_insertSeq (types : List TypeMetadata) :
    ∀ (steps : List ((Nat → Nat) × Nat × ComponentBundleVal)) {a : Archetype},
      ArchInv types a → ArchInv types (archInsertSeq a steps) := by
  intro steps
  induction steps with
  | nil => intro a h; exact h
  | cons s rest ih =>
    intro a h
    obtain ⟨junk, ent, b⟩ := s
    exact ih (archInv_insertOne types h junk ent b)

/-- C1: For every archetype and every sequence of `insert_one` calls into
it (modelled by `archInsertSeq` from `Archetype::new`), whenever
`Archetype::grow` reallocates the buffer with the capacity
`allocate_storage_for_entity` would request next (1 when the capacity is
0, otherwise `capacity << 1` — in particular the growth triggered by
inserting the `(capacity+1)`-th entity), the stored bytes of every
previously written row are unchanged: for every row `r < entity_count`
and every type index `t` in the signature, reading component `(t, r)`
after the reallocation returns exactly the bytes it held before.
Hypotheses record what Rust guarantees for real component types:
power-of-two alignments and no `usize` overflow of the layout. -/
theorem c1_growth_preserves_written_rows
    (types : List TypeMetadata)
    (steps : List ((Nat → Nat) × Nat × ComponentBundleVal))
    (junk : Nat → Nat) (t r : Nat)
    (hwf : WfTypes types)
    (hov : NoOverflow types
      (if (archInsertSeq (Archetype.new types) steps).capacity = 0 then 1
       else (archInsertSeq (Archetype.new types) steps).capacity <<< 1))
    (ht : t < types.length)
    (hr : r < (archInsertSeq (Archetype.new types) steps).entityCount) :
    readComponentBytes
        (grow junk (archInsertSeq (Archetype.new types) steps)
          (if (archInsertSeq (Archetype.new types) steps).capacity = 0 then 1
           else (archInsertSeq (Archetype.new types) steps).capacity <<< 1))
        t r ((types.getD t ⟨0, 1⟩).size) =
      readComponentBytes (archInsertSeq (Archetype.new types) steps) t r
        ((types.getD t ⟨0, 1⟩).size) := by
  set a := archInsertSeq (Archetype.new types) steps with ha
  have hinv := archInv_insertSeq types steps (archInv_new types)
  rw [← ha] at hinv
  by_cases hcap : a.capacity = 0
  · have := hinv.cap0 hcap
    omega
  · rw [if_neg hcap] at hov ⊢
    rw [← hinv.types_eq] at hwf hov ht ⊢
    refine grow_read_eq junk a (a.capacity <<< 1) t r
      (by rw [hinv.types_eq]; exact hinv.offs_len) hwf hov hcap ?_ ht hr
    have h1 := hinv.cnt_le
    have h2 : a.capacity <<< 1 = 2 * a.capacity := by
      rw [Nat.shiftLeft_eq]
      ring
    omega

/-- Witness for C1: one 4-byte component type; one entity inserted (so
`capacity = entity_count = 1`), then the doubling reallocation to
capacity 2 leaves row 0 byte-identical. -/
theorem c1_growth_preserves_written_rows_witness :
    readComponentBytes
        (grow (fun _ => 99)
          (archInsertSeq (Archetype.new [⟨4, 4⟩])
            [(fun _ => 7, 1, ⟨[0], [⟨4, 4⟩], [[10, 20, 30, 40]]⟩)])
          (if (archInsertSeq (Archetype.new [⟨4, 4⟩])
                [(fun _ => 7, 1, ⟨[0], [⟨4, 4⟩], [[10, 20, 30, 40]]⟩)]).capacity = 0
           then 1
           else (archInsertSeq (Archetype.new [⟨4, 4⟩])
                [(fun _ => 7, 1, ⟨[0], [⟨4, 4⟩], [[10, 20, 30, 40]]⟩)]).capacity <<< 1))
        0 0 (([⟨4, 4⟩] : List TypeMetadata).getD 0 ⟨0, 1⟩).size =
      readComponentBytes
        (archInsertSeq (Archetype.new [⟨4, 4⟩])
          [(fun _ => 7, 1, ⟨[0], [⟨4, 4⟩], [[10, 20, 30, 40]]⟩)])
        0 0 (([⟨4, 4⟩] : List TypeMetadata).getD 0 ⟨0, 1⟩).size :=
  c1_growth_preserves_written_rows [⟨4, 4⟩]
    [(fun _ => 7, 1, ⟨[0], [⟨4, 4⟩], [[10, 20, 30, 40]]⟩)]
    (fun _ => 99) 0 0
    (by
      intro tm htm
      rw [List.mem_singleton] at htm
      exact ⟨2, by omega, by rw [htm]; decide⟩)
    (by unfold NoOverflow; decide)
    (by decide)
    (by decide)

/-! ### Entity ids, signature identity, lookup failure -/

/-- A sequence of `Ecs::insert_one` calls, collecting the returned entity
ids in call order. -/
def Ecs.insertSeqIds (e : Ecs) :
    List ((Nat → Nat) × ComponentBundleVal) → Ecs × List Nat
  | [] => (e, [])
  | (junk, b) :: rest =>
    let r := Ecs.insertOne junk e b
    let rr := Ecs.insertSeqIds r.1 rest
    (rr.1, r.2 :: rr.2)

theorem insertSeqIds_spec :
    ∀ (steps : List ((Nat → Nat) × ComponentBundleVal)) (e : Ecs),
      (Ecs.insertSeqIds e steps).2 = List.range' e.nextEntity steps.length ∧
      (Ecs.insertSeqIds e steps).1.nextEntity = e.nextEntity + steps.length := by
  intro steps
  induction steps with
  | nil => intro e; exact ⟨rfl, rfl⟩
  | cons s rest ih =>
    intro e
    obtain ⟨junk, b⟩ := s
    have he' : ((Ecs.insertOne junk e b).1).nextEntity = e.nextEntity + 1 := rfl
    constructor
    · show ((Ecs.insertOne junk e b).2 ::
        (Ecs.insertSeqIds (Ecs.insertOne junk e b).1 rest).2) = _
      simp only [List.length_cons]
      rw [List.range'_succ]
      congr 1
      rw [(ih _).1, he']
    · show (Ecs.insertSeqIds (Ecs.insertOne junk e b).1 rest).1.nextEntity = _
      simp only [List.length_cons]
      rw [(ih _).2, he']
      omega

/-- C5: for every sequence of `N` successful `insert_one` calls on a fresh
archetype-model `Ecs`, the returned ids are exactly `1, 2, .., N`
(strictly increasing from 1, never reused), and afterwards
`entity_count()` returns `N`, which is the next-id counter minus 1. -/
theorem c5_insert_ids_sequential
    (steps : List ((Nat → Nat) × ComponentBundleVal)) :
    (Ecs.insertSeqIds Ecs.new steps).2 = List.range' 1 steps.length ∧
    (Ecs.insertSeqIds Ecs.new steps).1.entityCount = steps.length ∧
    (Ecs.insertSeqIds Ecs.new steps).1.entityCount =
      (Ecs.insertSeqIds Ecs.new steps).1.nextEntity - 1 := by
  have h := insertSeqIds_spec steps Ecs.new
  refine ⟨h.1, ?_, rfl⟩
  show (Ecs.insertSeqIds Ecs.new steps).1.nextEntity - 1 = steps.length
  rw [h.2]
  show 1 + steps.length - 1 = steps.length
  omega

/-- `Ecs::insert_one` when no archetype for the bundle's signature exists
yet: a fresh archetype is created from the bundle's metadata and entered
into the store under the bundle's type-id list. -/
theorem insertOne_of_storeGet_none {e : Ecs} {b : ComponentBundleVal}
    (junk : Nat → Nat) (h : storeGet e.archetypeStore b.typeIds = none) :
    (Ecs.insertOne junk e b).1.archetypeStore =
      storeInsertOrUpdate e.archetypeStore b.typeIds
        (b.writeInto
          (allocateStorageForEntity junk (Archetype.new b.metadata) e.nextEntity).1
          (allocateStorageForEntity junk (Archetype.new b.metadata) e.nextEntity).2) := by
  unfold Ecs.insertOne
  rw [h]

/-- C7: signature identity is list-order-sensitive.  Inserting a bundle
with type ids `[tidA, tidB]` and then one with `[tidB, tidA]` (distinct
`tidA ≠ tidB`) into a fresh `Ecs` creates two separate, non-deduplicated
archetypes, holding one entity each; the second insert does not reuse the
first archetype. -/
theorem c7_signature_order_sensitive (tidA tidB : Nat)
    (b1 b2 : ComponentBundleVal) (j1 j2 : Nat → Nat)
    (hne : tidA ≠ tidB) (h1 : b1.typeIds = [tidA, tidB])
    (h2 : b2.typeIds = [tidB, tidA]) :
    ((Ecs.insertOne j2 (Ecs.insertOne j1 Ecs.new b1).1 b2).1).archetypeStore.length = 2 ∧
    (∃ a1 : Archetype,
      storeGet ((Ecs.insertOne j2 (Ecs.insertOne j1 Ecs.new b1).1 b2).1).archetypeStore
        [tidA, tidB] = some a1 ∧ a1.entityCount = 1) ∧
    (∃ a2 : Archetype,
      storeGet ((Ecs.insertOne j2 (Ecs.insertOne j1 Ecs.new b1).1 b2).1).archetypeStore
        [tidB, tidA] = some a2 ∧ a2.entityCount = 1) := by
  have hkeys : ([tidA, tidB] : List Nat) ≠ [tidB, tidA] := by
    intro hcontra
    rw [List.cons_eq_cons] at hcontra
    exact hne hcontra.1
  have hcnt : ∀ (b : ComponentBundleVal) (junk : Nat → Nat) (ent : Nat),
      (b.writeInto (allocateStorageForEntity junk (Archetype.new b.metadata) ent).1
        (allocateStorageForEntity junk (Archetype.new b.metadata) ent).2).entityCount = 1 := by
    intro b junk ent
    exact (writeIntoGo_fields (b.metadata.zip b.values)
      (allocateStorageForEntity junk (Archetype.new b.metadata) ent).1
      (allocateStorageForEntity junk (Archetype.new b.metadata) ent).2 0).2.2.2.1
  have hstore1 : (Ecs.insertOne j1 Ecs.new b1).1.archetypeStore =
      [(b1.typeIds,
        b1.writeInto (allocateStorageForEntity j1 (Archetype.new b1.metadata) 1).1
          (allocateStorageForEntity j1 (Archetype.new b1.metadata) 1).2)] := rfl
  have hnext1 : (Ecs.insertOne j1 Ecs.new b1).1.nextEntity = 2 := rfl
  have hget2 : storeGet (Ecs.insertOne j1 Ecs.new b1).1.archetypeStore b2.typeIds = none := by
    rw [hstore1]
    show (if b1.typeIds = b2.typeIds then _ else storeGet [] b2.typeIds) = none
    rw [if_neg (by rw [h1, h2]; exact hkeys)]
    rfl
  have hstore2 := insertOne_of_storeGet_none j2 hget2
  rw [hstore1, hnext1] at hstore2
  have hout : storeInsertOrUpdate
      [(b1.typeIds,
        b1.writeInto (allocateStorageForEntity j1 (Archetype.new b1.metadata) 1).1
          (allocateStorageForEntity j1 (Archetype.new b1.metadata) 1).2)]
      b2.typeIds
      (b2.writeInto (allocateStorageForEntity j2 (Archetype.new b2.metadata) 2).1
        (allocateStorageForEntity j2 (Archetype.new b2.metadata) 2).2) =
      [(b1.typeIds,
        b1.writeInto (allocateStorageForEntity j1 (Archetype.new b1.metadata) 1).1
          (allocateStorageForEntity j1 (Archetype.new b1.metadata) 1).2),
       (b2.typeIds,
        b2.writeInto (allocateStorageForEntity j2 (Archetype.new b2.metadata) 2).1
          (allocateStorageForEntity j2 (Archetype.new b2.metadata) 2).2)] := by
    show (if b1.typeIds = b2.typeIds then _ else _) = _
    rw [if_neg (by rw [h1, h2]; exact hkeys)]
    rfl
  rw [hstore2, hout]
  refine ⟨rfl, ⟨_, ?_, hcnt b1 j1 1⟩, ⟨_, ?_, hcnt b2 j2 2⟩⟩
  · show (if b1.typeIds = [tidA, tidB] then
      some (b1.writeInto (allocateStorageForEntity j1 (Archetype.new b1.metadata) 1).1
        (allocateStorageForEntity j1 (Archetype.new b1.metadata) 1).2) else _) = _
    rw [if_pos h1]
  · show (if b1.typeIds = [tidB, tidA] then _ else
      storeGet [(b2.typeIds, _)] [tidB, tidA]) = _
    rw [if_neg (by rw [h1]; exact hkeys)]
    show (if b2.typeIds = [tidB, tidA] then
      some (b2.writeInto (allocateStorageForEntity j2 (Archetype.new b2.metadata) 2).1
        (allocateStorageForEntity j2 (Archetype.new b2.metadata) 2).2) else _) = _
    rw [if_pos h2]

/-- Witness for C7 at type ids 0 and 1 with empty-payload bundles. -/
theorem c7_signature_order_sensitive_witness :
    ((Ecs.insertOne (fun _ => 0)
        (Ecs.insertOne (fun _ => 0) Ecs.new ⟨[0, 1], [⟨4, 4⟩, ⟨4, 4⟩], [[1, 1, 1, 1], [2, 2, 2, 2]]⟩).1
        ⟨[1, 0], [⟨4, 4⟩, ⟨4, 4⟩], [[2, 2, 2, 2], [1, 1, 1, 1]]⟩).1).archetypeStore.length = 2 ∧
    (∃ a1 : Archetype,
      storeGet ((Ecs.insertOne (fun _ => 0)
        (Ecs.insertOne (fun _ => 0) Ecs.new ⟨[0, 1], [⟨4, 4⟩, ⟨4, 4⟩], [[1, 1, 1, 1], [2, 2, 2, 2]]⟩).1
        ⟨[1, 0], [⟨4, 4⟩, ⟨4, 4⟩], [[2, 2, 2, 2], [1, 1, 1, 1]]⟩).1).archetypeStore
        [0, 1] = some a1 ∧ a1.entityCount = 1) ∧
    (∃ a2 : Archetype,
      storeGet ((Ecs.insertOne (fun _ => 0)
        (Ecs.insertOne (fun _ => 0) Ecs.new ⟨[0, 1], [⟨4, 4⟩, ⟨4, 4⟩], [[1, 1, 1, 1], [2, 2, 2, 2]]⟩).1
        ⟨[1, 0], [⟨4, 4⟩, ⟨4, 4⟩], [[2, 2, 2, 2], [1, 1, 1, 1]]⟩).1).archetypeStore
        [1, 0] = some a2 ∧ a2.entityCount = 1) :=
  c7_signature_order_sensitive 0 1
    ⟨[0, 1], [⟨4, 4⟩, ⟨4, 4⟩], [[1, 1, 1, 1], [2, 2, 2, 2]]⟩
    ⟨[1, 0], [⟨4, 4⟩, ⟨4, 4⟩], [[2, 2, 2, 2], [1, 1, 1, 1]]⟩
    (fun _ => 0) (fun _ => 0) (by decide) rfl rfl

/-- The error type of `tuber-core` (`pub enum Error {}`): it has no
variants, so no error value can ever be constructed. -/
inductive TuberCoreError where

/-- C4 (the code contradicts this claim): requesting a never-inserted
signature from `entity` / `entity_mut` does not surface a recoverable
failure — `archetype_store.get(..).unwrap()` panics, and `tuber_core::
Error` being uninhabited means no `Err` value can even exist.  At the
failing input (fresh `Ecs`, any signature, entity 1) both calls panic. -/
theorem c4_lookup_failure_panics :
    Ecs.entity Ecs.new [0, 1] [8, 8] 1 = Outcome.panic ∧
    Ecs.entityMutWriteField Ecs.new [0, 1] 1 0 8 0 [0, 0, 0, 0] = Outcome.panic ∧
    ∀ err : TuberCoreError, False :=
  ⟨rfl, rfl, fun err => nomatch err⟩

/-! ### C6: the column layout against its specification wording -/

/-- Modelled from the spec's wording of `grow`'s layout recomputation:
"recompute, for each type in signature order, its aligned column offset
by rounding the running total up to that type's alignment then advancing
by `aligned_size × new_capacity`".  `aligned_size` is the type's size
rounded up to its alignment. -/
def specColumnLayoutGo (capacity sz : Nat) : List TypeMetadata → Nat × List Nat
  | [] => (sz, [])
  | tm :: rest =>
    let off := roundUpTo sz tm.align
    let alignedSize := roundUpTo tm.size tm.align
    let r := specColumnLayoutGo capacity (off + alignedSize * capacity) rest
    (r.1, off :: r.2)

/-- Modelled from the spec: total buffer size and column offsets for a
capacity, per the specification's words. -/
def specColumnLayout (types : List TypeMetadata) (capacity : Nat) : Nat × List Nat :=
  specColumnLayoutGo capacity 0 types

/-- Modelled from the spec: "alignment = first type's alignment, default
1 if none". -/
def specDataAlignment (types : List TypeMetadata) : Nat :=
  match types.head? with
  | some tm => tm.align
  | none => 1

theorem idealGo_eq_spec (cap : Nat) :
    ∀ (ts : List TypeMetadata), (∀ tm ∈ ts, 0 < tm.align ∧ tm.align ∣ tm.size) →
      ∀ sz : Nat, idealGo cap sz ts = specColumnLayoutGo cap sz ts := by
  intro ts
  induction ts with
  | nil => intro _ sz; rfl
  | cons tm rest ih =>
    intro h sz
    have h0 := h tm (List.mem_cons_self _ _)
    have hsz : roundUpTo tm.size tm.align = tm.size :=
      roundUpTo_eq_of_dvd h0.1 h0.2
    simp only [idealGo, specColumnLayoutGo, hsz]
    rw [ih (fun tm' h' => h tm' (List.mem_cons_of_mem _ h'))]

/-- C6: for every signature and capacity `c`, the layout computed by
`compute_required_size_for_capacity` is exactly the one the spec
describes: in signature order, each type's column offset is the running
total rounded up to its alignment, the total then advances by
`aligned_size × c`, the buffer's total size is the final running total,
and the allocation alignment is the first type's alignment (1 when the
signature is empty).  Hypotheses are Rust's `Layout` guarantees:
power-of-two alignments, sizes multiples of their alignment, and no
`usize` overflow. -/
theorem c6_layout_matches_spec (types : List TypeMetadata) (c : Nat)
    (hwf : WfTypes types) (hdvd : ∀ tm ∈ types, tm.align ∣ tm.size)
    (hov : NoOverflow types c) :
    computeRequiredSizeForCapacity types c = specColumnLayout types c ∧
    dataAlignment types = specDataAlignment types := by
  constructor
  · show computeRequiredGo c 0 types = specColumnLayoutGo c 0 types
    rw [computeRequiredGo_eq_ideal c types hwf 0 (by simpa [NoOverflow] using hov)]
    exact idealGo_eq_spec c types
      (fun tm h => ⟨wfType_align_pos (hwf tm h), hdvd tm h⟩) 0
  · rfl

/-- Witness for C6: a two-type signature (8-byte type aligned to 4, then
a 4-byte type aligned to 4) at capacity 3. -/
theorem c6_layout_matches_spec_witness :
    computeRequiredSizeForCapacity [⟨8, 4⟩, ⟨4, 4⟩] 3 = specColumnLayout [⟨8, 4⟩, ⟨4, 4⟩] 3 ∧
    dataAlignment [⟨8, 4⟩, ⟨4, 4⟩] = specDataAlignment [⟨8, 4⟩, ⟨4, 4⟩] :=
  c6_layout_matches_spec [⟨8, 4⟩, ⟨4, 4⟩] 3
    (by
      intro tm htm
      rw [List.mem_cons, List.mem_singleton] at htm
      rcases htm with h | h <;> exact ⟨2, by omega, by rw [h]; decide⟩)
    (by decide)
    (by unfold NoOverflow; decide)

/-! ### C2: write/read round-trip -/

/-- Default element for indexing the write-loop worklist. -/
def dfltP : TypeMetadata × List Nat := (⟨0, 1⟩, [])

/-- Whether `addr` falls in the slot of type index `k`, row `row` (size
from `tm`), given the offset table `offs`. -/
def inWriteRange (offs : List Nat) (row k : Nat) (tm : TypeMetadata)
    (addr : Nat) : Prop :=
  offs.getD k 0 + row * tm.size ≤ addr ∧
  addr < offs.getD k 0 + row * tm.size + tm.size

theorem writeComponent_typeOffsets (a : Archetype) (ti di ds : Nat)
    (bytes : List Nat) :
    (writeComponent a ti di ds bytes).typeOffsets = a.typeOffsets := rfl

theorem writeIntoGo_data_untouched :
    ∀ (l : List (TypeMetadata × List Nat)) (A : Archetype) (row i0 addr : Nat),
      (∀ j, j < l.length →
        ¬ inWriteRange A.typeOffsets row (i0 + j) (l.getD j dfltP).1 addr) →
      (writeIntoGo A row i0 l).data addr = A.data addr := by
  intro l
  induction l with
  | nil => intro A row i0 addr _; rfl
  | cons p rest ih =>
    intro A row i0 addr h
    obtain ⟨tm, bytes⟩ := p
    show (writeIntoGo (writeComponent A i0 row tm.size bytes) row (i0 + 1) rest).data addr = _
    rw [ih (writeComponent A i0 row tm.size bytes) row (i0 + 1) addr
      (fun j hj => by
        have hs := h (j + 1) (by simpa using Nat.succ_lt_succ hj)
        rw [show i0 + (j + 1) = i0 + 1 + j by omega] at hs
        simpa using hs)]
    have h0 := h 0 (by simp)
    rw [Nat.add_zero] at h0
    show writeBytesFn A.data (componentPtr A row tm.size i0) tm.size bytes addr = A.data addr
    unfold writeBytesFn
    rw [if_neg (by
      intro hcontra
      apply h0
      show A.typeOffsets.getD i0 0 + row * tm.size ≤ addr ∧
        addr < A.typeOffsets.getD i0 0 + row * tm.size + tm.size
      have hc1 : componentPtr A row tm.size i0 =
          A.typeOffsets.getD i0 0 + row * tm.size := rfl
      rw [hc1] at hcontra
      exact hcontra)]

/-- Last-writer value of the write loop: when `addr` lies in the slot of
element `j` and of no later element, the final byte comes from element
`j`'s source bytes. -/
theorem writeIntoGo_data_at :
    ∀ (l : List (TypeMetadata × List Nat)) (A : Archetype) (row i0 addr j : Nat),
      j < l.length →
      inWriteRange A.typeOffsets row (i0 + j) (l.getD j dfltP).1 addr →
      (∀ j2, j < j2 → j2 < l.length →
        ¬ inWriteRange A.typeOffsets row (i0 + j2) (l.getD j2 dfltP).1 addr) →
      (writeIntoGo A row i0 l).data addr =
        (l.getD j dfltP).2.getD
          (addr - (A.typeOffsets.getD (i0 + j) 0 +
            row * (l.getD j dfltP).1.size)) 0 := by
  intro l
  induction l with
  | nil => intro A row i0 addr j hj; simp at hj
  | cons p rest ih =>
    intro A row i0 addr j hj hin hlater
    obtain ⟨tm, bytes⟩ := p
    match j with
    | 0 =>
      show (writeIntoGo (writeComponent A i0 row tm.size bytes) row (i0 + 1) rest).data addr = _
      rw [writeIntoGo_data_untouched rest (writeComponent A i0 row tm.size bytes)
        row (i0 + 1) addr
        (fun j2 hj2 => by
          have hs := hlater (j2 + 1) (by omega) (by simpa using Nat.succ_lt_succ hj2)
          rw [show i0 + (j2 + 1) = i0 + 1 + j2 by omega] at hs
          simpa using hs)]
      rw [Nat.add_zero] at hin
      have hin0 : A.typeOffsets.getD i0 0 + row * tm.size ≤ addr ∧
          addr < A.typeOffsets.getD i0 0 + row * tm.size + tm.size := by
        simpa [inWriteRange] using hin
      show writeBytesFn A.data (componentPtr A row tm.size i0) tm.size bytes addr = _
      unfold writeBytesFn
      have hc1 : componentPtr A row tm.size i0 =
          A.typeOffsets.getD i0 0 + row * tm.size := rfl
      rw [hc1, if_pos (by omega)]
      simp [Nat.add_zero]
    | j + 1 =>
      show (writeIntoGo (writeComponent A i0 row tm.size bytes) row (i0 + 1) rest).data addr = _
      rw [ih (writeComponent A i0 row tm.size bytes) row (i0 + 1) addr j
        (by simpa using hj)
        (by
          rw [show i0 + (j + 1) = i0 + 1 + j by omega] at hin
          simpa using hin)
        (fun j2 h1 h2 => by
          have hs := hlater (j2 + 1) (by omega) (by simpa using Nat.succ_lt_succ h2)
          rw [show i0 + (j2 + 1) = i0 + 1 + j2 by omega] at hs
          simpa using hs)]
      simp only [List.getD_cons_succ]
      rw [show i0 + 1 + j = i0 + (j + 1) by omega]
      rfl

theorem offsets_eq_colStart (types : List TypeMetadata) (cap : Nat)
    (hwf : WfTypes types) (hov : NoOverflow types cap) {u : Nat}
    (hu : u < types.length) :
    (computeRequiredSizeForCapacity types cap).2.getD u 0 =
      colStart cap 0 types u := by
  rw [colStart_eq_getD]
  show (computeRequiredGo cap 0 types).2.getD u 0 = _
  rw [computeRequiredGo_eq_ideal cap types hwf 0 (by simpa [NoOverflow] using hov)]
  have hu2 : u < (idealGo cap 0 types).2.length := by
    rw [idealGo_offsets_length]
    exact hu
  rw [List.getD_eq_getElem _ _ hu2, List.getD_eq_getElem _ _ hu2]

theorem zip2_getD (ts : List TypeMetadata) (vs : List (List Nat)) :
    ∀ j : Nat, vs.length = ts.length → j < ts.length →
      (ts.zip vs).getD j dfltP = (ts.getD j ⟨0, 1⟩, vs.getD j []) := by
  induction ts generalizing vs with
  | nil => intro j _ hj; simp at hj
  | cons tm rest ih =>
    intro j h1 hj
    match vs, h1 with
    | v :: vs, h1 =>
      match j with
      | 0 => rfl
      | j + 1 =>
        simp only [List.zip_cons_cons, List.getD_cons_succ]
        exact ih vs j (by simpa using h1) (by simpa using hj)

/-- Reading a component slot straight after `write_into` on that row
returns the bytes of the written value: later tuple elements land in
strictly later columns and cannot clobber earlier ones. -/
theorem writeInto_read_back (types : List TypeMetadata) (values : List (List Nat))
    (A : Archetype) (row : Nat)
    (hoffs : A.typeOffsets = (computeRequiredSizeForCapacity types A.capacity).2)
    (hrow : row < A.capacity)
    (hwf : WfTypes types) (hov : NoOverflow types A.capacity)
    (hlen : values.length = types.length)
    (hvlen : ∀ i, i < types.length →
      (values.getD i []).length = (types.getD i ⟨0, 1⟩).size)
    (t : Nat) (ht : t < types.length) :
    readComponentBytes (writeIntoGo A row 0 (types.zip values)) t row
      ((types.getD t ⟨0, 1⟩).size) = values.getD t [] := by
  have hal : ∀ tm ∈ types, 0 < tm.align := fun tm h => wfType_align_pos (hwf tm h)
  have hoffsD : ∀ u, u < types.length →
      A.typeOffsets.getD u 0 = colStart A.capacity 0 types u := by
    intro u hu
    rw [hoffs]
    exact offsets_eq_colStart types A.capacity hwf hov hu
  have hzlen : (types.zip values).length = types.length := by simp [hlen]
  have hwoffs : (writeIntoGo A row 0 (types.zip values)).typeOffsets = A.typeOffsets :=
    (writeIntoGo_fields _ _ _ _).2.1
  set szt := (types.getD t ⟨0, 1⟩).size with hszt
  apply List.ext_getElem
  · unfold readComponentBytes
    rw [List.length_map, List.length_range, hvlen t ht]
  · intro m hm1 hm2
    have hm : m < szt := by
      simpa [readComponentBytes] using hm1
    show ((List.range szt).map fun j =>
      (writeIntoGo A row 0 (types.zip values)).data
        (componentPtr (writeIntoGo A row 0 (types.zip values)) row szt t + j))[m] =
      (values.getD t [])[m]
    rw [List.getElem_map, List.getElem_range]
    have hptr : componentPtr (writeIntoGo A row 0 (types.zip values)) row szt t =
        A.typeOffsets.getD t 0 + row * szt := by
      unfold componentPtr
      rw [hwoffs]
    rw [hptr]
    have hrowmul : row * szt + szt ≤ A.capacity * szt := by
      have h1 : (row + 1) * szt ≤ A.capacity * szt :=
        Nat.mul_le_mul_right _ (by omega)
      have h2 : (row + 1) * szt = row * szt + szt := by ring
      omega
    rw [writeIntoGo_data_at (types.zip values) A row 0
      (A.typeOffsets.getD t 0 + row * szt + m) t (by omega)
      (by
        rw [Nat.zero_add, zip2_getD types values t hlen ht]
        show A.typeOffsets.getD t 0 + row * szt ≤ _ ∧
          _ < A.typeOffsets.getD t 0 + row * szt + szt
        omega)
      (fun j2 hj2 hj2l => by
        rw [Nat.zero_add, zip2_getD types values j2 hlen (by omega)]
        intro hcontra
        have hlo : A.typeOffsets.getD j2 0 + row * (types.getD j2 ⟨0, 1⟩).size ≤
            A.typeOffsets.getD t 0 + row * szt + m := hcontra.1
        have hgap : colStart A.capacity 0 types t + szt * A.capacity ≤
            colStart A.capacity 0 types j2 := colStart_gap A.capacity types hal 0 ht hj2
        rw [← hoffsD t ht, ← hoffsD j2 (by omega)] at hgap
        have hcs : szt * A.capacity = A.capacity * szt := Nat.mul_comm _ _
        omega)]
    rw [Nat.zero_add, zip2_getD types values t hlen ht]
    show (values.getD t []).getD
      (A.typeOffsets.getD t 0 + row * szt + m -
        (A.typeOffsets.getD t 0 + row * szt)) 0 = _
    rw [show A.typeOffsets.getD t 0 + row * szt + m -
      (A.typeOffsets.getD t 0 + row * szt) = m by omega]
    rw [List.getD_eq_getElem _ _ (by omega)]

/-- The bytes of `orig` with the range starting at `off` overwritten by
`repl` (the effect of assigning one field through a mutable component
reference). -/
def spliceBytes (orig : List Nat) (off : Nat) (repl : List Nat) : List Nat :=
  (List.range orig.length).map fun m =>
    if off ≤ m ∧ m < off + repl.length then repl.getD (m - off) 0 else orig.getD m 0

theorem readComponentBytes_length (a : Archetype) (ti di ds : Nat) :
    (readComponentBytes a ti di ds).length = ds := by
  unfold readComponentBytes
  rw [List.length_map, List.length_range]

/-- The buffer update performed by assigning one field (at byte offset
`fieldOff`, `fieldBytes.length` bytes) of component `c` of row `row`
through a reference obtained from `entity_mut`. -/
def writeFieldData (A : Archetype) (row szc c fieldOff : Nat)
    (fieldBytes : List Nat) : Archetype :=
  { A with
    data := writeBytesFn A.data (componentPtr A row szc c + fieldOff)
      fieldBytes.length fieldBytes }

/-- Reading the mutated component back: the slot's bytes are the old
bytes with the field range spliced in. -/
theorem writeField_read_same (A : Archetype) (c row szc fieldOff : Nat)
    (fieldBytes : List Nat) :
    readComponentBytes (writeFieldData A row szc c fieldOff fieldBytes) c row szc =
    spliceBytes (readComponentBytes A c row szc) fieldOff fieldBytes := by
  unfold spliceBytes
  rw [readComponentBytes_length]
  unfold readComponentBytes
  apply List.map_congr_left
  intro m hmr
  have hm : m < szc := List.mem_range.mp hmr
  have hptr : componentPtr (writeFieldData A row szc c fieldOff fieldBytes)
      row szc c = componentPtr A row szc c := rfl
  rw [hptr]
  show writeBytesFn A.data (componentPtr A row szc c + fieldOff)
    fieldBytes.length fieldBytes (componentPtr A row szc c + m) = _
  unfold writeBytesFn
  by_cases hin : fieldOff ≤ m ∧ m < fieldOff + fieldBytes.length
  · rw [if_pos (by omega), if_pos hin]
    rw [show componentPtr A row szc c + m -
      (componentPtr A row szc c + fieldOff) = m - fieldOff by omega]
  · rw [if_neg (by omega), if_neg hin]
    show A.data (componentPtr A row szc c + m) =
      ((List.range szc).map fun j => A.data (componentPtr A row szc c + j)).getD m 0
    rw [List.getD_eq_getElem _ _ (by
      rw [List.length_map, List.length_range]
      exact hm)]
    rw [List.getElem_map, List.getElem_range]

/-- Mutating one field of component `c` leaves every other component of
the same row untouched: the write range stays inside column `c`, and
columns are pairwise disjoint. -/
theorem writeField_read_other (types : List TypeMetadata) (A : Archetype)
    (row c t : Nat)
    (hoffs : A.typeOffsets = (computeRequiredSizeForCapacity types A.capacity).2)
    (hwf : WfTypes types) (hov : NoOverflow types A.capacity)
    (hrow : row < A.capacity) (hc : c < types.length) (ht : t < types.length)
    (hne : t ≠ c) (fieldOff : Nat) (fieldBytes : List Nat)
    (hfield : fieldOff + fieldBytes.length ≤ (types.getD c ⟨0, 1⟩).size) :
    readComponentBytes
      (writeFieldData A row ((types.getD c ⟨0, 1⟩).size) c fieldOff fieldBytes)
      t row ((types.getD t ⟨0, 1⟩).size) =
    readComponentBytes A t row ((types.getD t ⟨0, 1⟩).size) := by
  have hal : ∀ tm ∈ types, 0 < tm.align := fun tm h => wfType_align_pos (hwf tm h)
  have hoffsD : ∀ u, u < types.length →
      A.typeOffsets.getD u 0 = colStart A.capacity 0 types u := by
    intro u hu
    rw [hoffs]
    exact offsets_eq_colStart types A.capacity hwf hov hu
  set szc := (types.getD c ⟨0, 1⟩).size with hszc
  set szt := (types.getD t ⟨0, 1⟩).size with hszt
  unfold readComponentBytes
  apply List.map_congr_left
  intro m hmr
  have hm : m < szt := List.mem_range.mp hmr
  have hptr : componentPtr (writeFieldData A row szc c fieldOff fieldBytes)
      row szt t = componentPtr A row szt t := rfl
  rw [hptr]
  show writeBytesFn A.data (componentPtr A row szc c + fieldOff)
    fieldBytes.length fieldBytes (componentPtr A row szt t + m) = _
  have hptrc : componentPtr A row szc c = A.typeOffsets.getD c 0 + row * szc := rfl
  have hptrt : componentPtr A row szt t = A.typeOffsets.getD t 0 + row * szt := rfl
  have hrowc : row * szc + szc ≤ A.capacity * szc := by
    have h1 : (row + 1) * szc ≤ A.capacity * szc := Nat.mul_le_mul_right _ (by omega)
    have h2 : (row + 1) * szc = row * szc + szc := by ring
    omega
  have hrowt : row * szt + szt ≤ A.capacity * szt := by
    have h1 : (row + 1) * szt ≤ A.capacity * szt := Nat.mul_le_mul_right _ (by omega)
    have h2 : (row + 1) * szt = row * szt + szt := by ring
    omega
  unfold writeBytesFn
  rw [if_neg ?_]
  rcases Nat.lt_or_ge t c with hlt | hge
  · have hgap : colStart A.capacity 0 types t + szt * A.capacity ≤
        colStart A.capacity 0 types c := colStart_gap A.capacity types hal 0 ht hlt
    rw [← hoffsD t ht, ← hoffsD c hc] at hgap
    have hcs : szt * A.capacity = A.capacity * szt := Nat.mul_comm _ _
    rw [hptrc, hptrt]
    omega
  · have hlt2 : c < t := by omega
    have hgap : colStart A.capacity 0 types c + szc * A.capacity ≤
        colStart A.capacity 0 types t := colStart_gap A.capacity types hal 0 hc hlt2
    rw [← hoffsD t ht, ← hoffsD c hc] at hgap
    have hcs : szc * A.capacity = A.capacity * szc := Nat.mul_comm _ _
    rw [hptrc, hptrt]
    omega

theorem entity_eq_of_get_some {e : Ecs} {tids sizes : List Nat} {ent : Nat}
    {a : Archetype} (h : storeGet e.archetypeStore tids = some a) :
    Ecs.entity e tids sizes ent = a.readEntity sizes ent := by
  unfold Ecs.entity
  rw [h]

theorem readEntity_eq_of_row {a : Archetype} {sizes : List Nat} {ent row : Nat}
    (h : a.storedEntities ent = some row) :
    a.readEntity sizes ent = Outcome.ok ((List.range sizes.length).map fun i =>
      readComponentBytes a i row (sizes.getD i 0)) := by
  unfold Archetype.readEntity
  rw [h]

theorem entityMutWriteField_eq {e : Ecs} {tids : List Nat}
    {ent c csz off : Nat} {bytes : List Nat} {a : Archetype} {row : Nat}
    (h1 : storeGet e.archetypeStore tids = some a)
    (h2 : a.storedEntities ent = some row) :
    Ecs.entityMutWriteField e tids ent c csz off bytes =
      Outcome.ok ⟨storeInsertOrUpdate e.archetypeStore tids
        (writeFieldData a row csz c off bytes), e.nextEntity⟩ := by
  unfold Ecs.entityMutWriteField
  rw [h1]
  show (match a.storedEntities ent with
    | none => Outcome.panic
    | some dataIndex =>
      Outcome.ok (⟨storeInsertOrUpdate e.archetypeStore tids
        (writeFieldData a dataIndex csz c off bytes), e.nextEntity⟩ : Ecs)) = _
  rw [h2]

/-- C2: round-trip through the archetype store.  Inserting a bundle value
`b` into a fresh `Ecs` returns id 1; `entity` at that id reads back
byte-identical (hence field-identical) values; and after mutating one
field of one component through `entity_mut`, a subsequent `entity` read
observes exactly that mutation (the field bytes spliced in) and no other
change.  Hypotheses are the bundle/`Layout` well-formedness guarantees
and that the mutated field lies inside its component. -/
theorem c2_insert_entity_roundtrip (junk : Nat → Nat) (b : ComponentBundleVal)
    (c fieldOff : Nat) (fieldBytes : List Nat)
    (hwfb : b.wf) (hwf : WfTypes b.metadata) (hov : NoOverflow b.metadata 1)
    (hc : c < b.metadata.length)
    (hfield : fieldOff + fieldBytes.length ≤ (b.metadata.getD c ⟨0, 1⟩).size) :
    (Ecs.insertOne junk Ecs.new b).2 = 1 ∧
    Ecs.entity (Ecs.insertOne junk Ecs.new b).1 b.typeIds
      (b.metadata.map TypeMetadata.size) 1 = Outcome.ok b.values ∧
    ∃ e2 : Ecs,
      Ecs.entityMutWriteField (Ecs.insertOne junk Ecs.new b).1 b.typeIds 1 c
        ((b.metadata.getD c ⟨0, 1⟩).size) fieldOff fieldBytes = Outcome.ok e2 ∧
      Ecs.entity e2 b.typeIds (b.metadata.map TypeMetadata.size) 1 =
        Outcome.ok (b.values.set c
          (spliceBytes (b.values.getD c []) fieldOff fieldBytes)) := by
  have hvlen : b.values.length = b.metadata.length := hwfb.2.1
  have hvsz := hwfb.2.2
  have hsg : ∀ A : Archetype, storeGet [(b.typeIds, A)] b.typeIds = some A := by
    intro A
    show (if b.typeIds = b.typeIds then some A else storeGet [] b.typeIds) = some A
    rw [if_pos rfl]
  have hsiu : ∀ A A' : Archetype,
      storeInsertOrUpdate [(b.typeIds, A)] b.typeIds A' = [(b.typeIds, A')] := by
    intro A A'
    show (if b.typeIds = b.typeIds then _ else _) = _
    rw [if_pos rfl]
  have hsizes : ∀ i, i < b.metadata.length →
      (b.metadata.map TypeMetadata.size).getD i 0 = (b.metadata.getD i ⟨0, 1⟩).size := by
    intro i hi
    rw [List.getD_eq_getElem _ _ (by rw [List.length_map]; exact hi),
      List.getElem_map, List.getD_eq_getElem _ _ hi]
  have hreadA2 : ∀ i, i < b.metadata.length →
      readComponentBytes
        (writeIntoGo (allocateStorageForEntity junk (Archetype.new b.metadata) 1).1
          0 0 (b.metadata.zip b.values)) i 0 ((b.metadata.getD i ⟨0, 1⟩).size) =
      b.values.getD i [] := by
    intro i hi
    exact writeInto_read_back b.metadata b.values
      (allocateStorageForEntity junk (Archetype.new b.metadata) 1).1 0
      rfl Nat.one_pos hwf hov hvlen hvsz i hi
  have hstoreGet : storeGet (Ecs.insertOne junk Ecs.new b).1.archetypeStore b.typeIds =
      some (writeIntoGo (allocateStorageForEntity junk (Archetype.new b.metadata) 1).1
        0 0 (b.metadata.zip b.values)) :=
    hsg (writeIntoGo (allocateStorageForEntity junk (Archetype.new b.metadata) 1).1
      0 0 (b.metadata.zip b.values))
  have hse : (writeIntoGo (allocateStorageForEntity junk (Archetype.new b.metadata) 1).1
      0 0 (b.metadata.zip b.values)).storedEntities 1 = some 0 := by
    rw [(writeIntoGo_fields (b.metadata.zip b.values)
      (allocateStorageForEntity junk (Archetype.new b.metadata) 1).1 0 0).2.2.2.2]
    rfl
  have hcap2 : (writeIntoGo (allocateStorageForEntity junk (Archetype.new b.metadata) 1).1
      0 0 (b.metadata.zip b.values)).capacity = 1 := by
    rw [(writeIntoGo_fields (b.metadata.zip b.values)
      (allocateStorageForEntity junk (Archetype.new b.metadata) 1).1 0 0).2.2.1]
    rfl
  have hoffs2 : (writeIntoGo (allocateStorageForEntity junk (Archetype.new b.metadata) 1).1
      0 0 (b.metadata.zip b.values)).typeOffsets =
      (computeRequiredSizeForCapacity b.metadata
        (writeIntoGo (allocateStorageForEntity junk (Archetype.new b.metadata) 1).1
          0 0 (b.metadata.zip b.values)).capacity).2 := by
    rw [(writeIntoGo_fields (b.metadata.zip b.values)
      (allocateStorageForEntity junk (Archetype.new b.metadata) 1).1 0 0).2.1, hcap2]
    rfl
  have hov2 : NoOverflow b.metadata
      (writeIntoGo (allocateStorageForEntity junk (Archetype.new b.metadata) 1).1
        0 0 (b.metadata.zip b.values)).capacity := by
    rw [hcap2]
    exact hov
  have hrow2 : 0 < (writeIntoGo (allocateStorageForEntity junk (Archetype.new b.metadata) 1).1
      0 0 (b.metadata.zip b.values)).capacity := by
    rw [hcap2]
    exact Nat.one_pos
  have hpart2 : Ecs.entity (Ecs.insertOne junk Ecs.new b).1 b.typeIds
      (b.metadata.map TypeMetadata.size) 1 = Outcome.ok b.values := by
    rw [entity_eq_of_get_some hstoreGet, readEntity_eq_of_row hse]
    congr 1
    apply List.ext_getElem
    · rw [List.length_map, List.length_range, List.length_map]
      exact hvlen.symm
    · intro i h1 h2
      rw [List.getElem_map, List.getElem_range]
      have hi : i < b.metadata.length := by omega
      rw [hsizes i hi, hreadA2 i hi, List.getD_eq_getElem _ _ (by omega)]
  refine ⟨rfl, hpart2, ⟨[(b.typeIds,
    writeFieldData
      (writeIntoGo (allocateStorageForEntity junk (Archetype.new b.metadata) 1).1
        0 0 (b.metadata.zip b.values))
      0 ((b.metadata.getD c ⟨0, 1⟩).size) c fieldOff fieldBytes)], 2⟩, ?_, ?_⟩
  · rw [entityMutWriteField_eq hstoreGet hse]
    show Outcome.ok (⟨storeInsertOrUpdate
      [(b.typeIds,
        writeIntoGo (allocateStorageForEntity junk (Archetype.new b.metadata) 1).1
          0 0 (b.metadata.zip b.values))] b.typeIds
      (writeFieldData
        (writeIntoGo (allocateStorageForEntity junk (Archetype.new b.metadata) 1).1
          0 0 (b.metadata.zip b.values))
        0 ((b.metadata.getD c ⟨0, 1⟩).size) c fieldOff fieldBytes), 2⟩ : Ecs) = _
    rw [hsiu]
  · rw [entity_eq_of_get_some (hsg (writeFieldData
        (writeIntoGo (allocateStorageForEntity junk (Archetype.new b.metadata) 1).1
          0 0 (b.metadata.zip b.values))
        0 ((b.metadata.getD c ⟨0, 1⟩).size) c fieldOff fieldBytes)),
      readEntity_eq_of_row (show (writeFieldData
        (writeIntoGo (allocateStorageForEntity junk (Archetype.new b.metadata) 1).1
          0 0 (b.metadata.zip b.values))
        0 ((b.metadata.getD c ⟨0, 1⟩).size) c fieldOff fieldBytes).storedEntities 1 =
        some 0 from hse)]
    congr 1
    apply List.ext_getElem
    · rw [List.length_map, List.length_range, List.length_map, List.length_set]
      exact hvlen.symm
    · intro i h1 h2
      rw [List.getElem_map, List.getElem_range]
      have hi : i < b.metadata.length := by
        rw [List.length_set] at h2
        omega
      rw [hsizes i hi]
      by_cases hic : i = c
      · subst hic
        rw [writeField_read_same
          (writeIntoGo (allocateStorageForEntity junk (Archetype.new b.metadata) 1).1
            0 0 (b.metadata.zip b.values))
          i 0 ((b.metadata.getD i ⟨0, 1⟩).size) fieldOff fieldBytes,
          hreadA2 i hi,
          List.getElem_set_self]
      · rw [writeField_read_other b.metadata
          (writeIntoGo (allocateStorageForEntity junk (Archetype.new b.metadata) 1).1
            0 0 (b.metadata.zip b.values))
          0 c i hoffs2 hwf hov2 hrow2 hc hi hic fieldOff fieldBytes hfield,
          hreadA2 i hi,
          List.getElem_set_ne (fun hcontra => hic hcontra.symm),
          List.getD_eq_getElem _ _ (show i < b.values.length by omega)]

/-- The concrete scenario bundle: `(Position{x:2.0, y:1.0},
Velocity{x:1.5, y:2.6})`, each an 8-byte struct of two little-endian
IEEE-754 `f32`s, 4-byte aligned; type ids 0 and 1. -/
def posVelBundle : ComponentBundleVal where
  typeIds := [0, 1]
  metadata := [⟨8, 4⟩, ⟨8, 4⟩]
  values := [[0, 0, 0, 64, 0, 0, 128, 63], [0, 0, 192, 63, 102, 102, 38, 64]]

/-- Witness for C2: the spec's concrete scenario.  Inserting
`(Position{2.0,1.0}, Velocity{1.5,2.6})` into a fresh `Ecs` returns
id 1, reads back the exact bytes, and setting `x = 0.0` (4 zero bytes at
field offset 0 of component 0) is observed exactly. -/
theorem c2_insert_entity_roundtrip_witness :
    (Ecs.insertOne (fun _ => 0) Ecs.new posVelBundle).2 = 1 ∧
    Ecs.entity (Ecs.insertOne (fun _ => 0) Ecs.new posVelBundle).1
      posVelBundle.typeIds (posVelBundle.metadata.map TypeMetadata.size) 1 =
      Outcome.ok posVelBundle.values ∧
    ∃ e2 : Ecs,
      Ecs.entityMutWriteField (Ecs.insertOne (fun _ => 0) Ecs.new posVelBundle).1
        posVelBundle.typeIds 1 0 ((posVelBundle.metadata.getD 0 ⟨0, 1⟩).size) 0
        [0, 0, 0, 0] = Outcome.ok e2 ∧
      Ecs.entity e2 posVelBundle.typeIds
        (posVelBundle.metadata.map TypeMetadata.size) 1 =
        Outcome.ok (posVelBundle.values.set 0
          (spliceBytes (posVelBundle.values.getD 0 []) 0 [0, 0, 0, 0])) :=
  c2_insert_entity_roundtrip (fun _ => 0) posVelBundle 0 0 [0, 0, 0, 0]
    (by unfold ComponentBundleVal.wf; decide)
    (by
      intro tm htm
      have htm2 : tm ∈ [(⟨8, 4⟩ : TypeMetadata), ⟨8, 4⟩] := htm
      rw [List.mem_cons, List.mem_singleton] at htm2
      rcases htm2 with h | h <;> exact ⟨2, by omega, by rw [h]; decide⟩)
    (by unfold NoOverflow; decide)
    (by decide)
    (by decide)

end Arch

/-! ## The bitset-column storage model

Embeds `crates/tuber-ecs/src/ecs.rs`, `query.rs`, `bitset.rs` and
`system.rs`.  A `ComponentStore` holds one `Vec<Option<RefCell<Box<dyn
Any>>>>` of per-entity payloads (the type-erased payload embedded as
`Int`) and an `entities_bitset: [u64; 1024]` presence bitmap, embedded by
its bit function (`bit(i)` of `bitset.rs` reads bit `i % 64` of word
`i / 64`; `set_bit`/`unset_bit` update exactly that bit).  The bitmap's
universe is `1024 * 64 = 65536` bits and indexing beyond it is out of
bounds, so operations carry that precondition. -/

namespace Bcol

/-- `bit_count()` of the `[u64; 1024]` entities bitset. -/
def bitsetCapacity : Nat := 1024 * 64

/-- `BitSet::set_bit` on the bitmap's bit function. -/
def setBit (f : Nat → Bool) (i : Nat) : Nat → Bool :=
  fun j => if j = i then true else f j

/-- `BitSet::unset_bit` on the bitmap's bit function. -/
def unsetBit (f : Nat → Bool) (i : Nat) : Nat → Bool :=
  fun j => if j = i then false else f j

/-- `ComponentStore` (`ecs.rs`). -/
structure ComponentStore where
  componentData : List (Option Int)
  entitiesBitset : Nat → Bool

/-- `ComponentStore::with_size(size)`: `vec![None]` plus `size` pushed
`None`s, all bits clear. -/
def ComponentStore.withSize (size : Nat) : ComponentStore where
  componentData := List.replicate (size + 1) none
  entitiesBitset := fun _ => false

/-- `ComponentStore::remove_from_entity`: unset the presence bit and
clear the value. -/
def ComponentStore.removeFromEntity (st : ComponentStore) (i : Nat) :
    ComponentStore where
  componentData := st.componentData.set i none
  entitiesBitset := unsetBit st.entitiesBitset i

/-- `Components = HashMap<TypeId, ComponentStore>`, embedded as an
association list keyed by type id. -/
abbrev Components := List (Nat × ComponentStore)

/-- `HashMap::get` on the component map. -/
def compsGet : Components → Nat → Option ComponentStore
  | [], _ => none
  | (k, st) :: rest, tid => if k = tid then some st else compsGet rest tid

/-- Update every entry of key `tid` in place (the effect of mutating the
store returned by `entry(..).or_insert(..)` / `get_mut`). -/
def compsUpdate (comps : Components) (tid : Nat)
    (f : ComponentStore → ComponentStore) : Components :=
  comps.map fun p => if p.1 = tid then (p.1, f p.2) else p

/-- Mutate every store (`components.values_mut()`). -/
def compsMapAll (comps : Components) (f : ComponentStore → ComponentStore) :
    Components :=
  comps.map fun p => (p.1, f p.2)

/-- Overwrite the store's last slot with the value and set the entity's
presence bit (`*component_data.last_mut().unwrap() = Some(v);
entities_bitset.set_bit(index)`). -/
def storeLast (st : ComponentStore) (v : Int) (index : Nat) : ComponentStore where
  componentData := st.componentData.set (st.componentData.length - 1) (some v)
  entitiesBitset := setBit st.entitiesBitset index

/-- One tuple element of `EntityDefinition::store_components`:
`components.entry(tid).or_insert(ComponentStore::with_size(index))`, then
overwrite the last slot and set bit `index`. -/
def storeOne (comps : Components) (tid : Nat) (v : Int) (index : Nat) :
    Components :=
  match compsGet comps tid with
  | some _ => compsUpdate comps tid (fun st => storeLast st v index)
  | none => comps ++ [(tid, storeLast (ComponentStore.withSize index) v index)]

/-- `EntityDefinition::store_components` for a tuple (the bundle is the
list of `(type id, payload)` pairs in declaration order): first push
`None` onto every existing store, then handle each tuple element. -/
def storeComponents (bundle : List (Nat × Int)) (comps : Components)
    (index : Nat) : Components :=
  bundle.foldl (fun cs tv => storeOne cs tv.1 tv.2 index)
    (compsMapAll comps fun st =>
      { st with componentData := st.componentData ++ [none] })

/-- `struct Ecs` (`ecs.rs`): the component map and the next entity index
(`shared_resources` plays no role in the claims and is omitted). -/
structure EcsB where
  components : Components
  nextIndex : Nat

/-- `Ecs::new()`. -/
def EcsB.new : EcsB where
  components := []
  nextIndex := 0

/-- `Ecs::entity_count()`: `next_index`. -/
def EcsB.entityCount (e : EcsB) : Nat := e.nextIndex

/-- `Ecs::insert`: store the bundle's components at index `next_index`,
bump the counter, return the index. -/
def EcsB.insert (e : EcsB) (bundle : List (Nat × Int)) : EcsB × Nat :=
  (⟨storeComponents bundle e.components e.nextIndex, e.nextIndex + 1⟩,
    e.nextIndex)

/-- `Ecs::remove_component::<C>`: if a store for the type exists, remove
the component from the entity. -/
def EcsB.removeComponent (e : EcsB) (tid i : Nat) : EcsB :=
  match compsGet e.components tid with
  | some _ =>
    ⟨compsUpdate e.components tid fun st => st.removeFromEntity i, e.nextIndex⟩
  | none => e

/-- `Accessor::matching_ids` (both `R` and `W`): every index of
`0 .. max(entity_count, bit_count())` whose presence bit is set; empty
when the type has no store. -/
def accessorMatchingIds (n : Nat) (comps : Components) (tid : Nat) : List Nat :=
  match compsGet comps tid with
  | some st => (List.range (max n bitsetCapacity)).filter st.entitiesBitset
  | none => []

/-- `Query::matching_ids` for the type-id list of a query tuple: the
head accessor's ids intersected with each further accessor's ids. -/
def queryMatchingIds (n : Nat) (comps : Components) : List Nat → List Nat
  | [] => []
  | tid :: rest =>
    rest.foldl
      (fun acc tid2 => acc.filter fun i => (accessorMatchingIds n comps tid2).contains i)
      (accessorMatchingIds n comps tid)

/-- `Ecs::delete_by_query::<Q>`: compute the matching ids, then for each
one clear its bit and value in every store. -/
def EcsB.deleteByQuery (e : EcsB) (tids : List Nat) : EcsB :=
  ⟨(queryMatchingIds e.entityCount e.components tids).foldl
      (fun comps i => compsMapAll comps fun st => st.removeFromEntity i)
      e.components,
    e.nextIndex⟩

/-- The bitsets collected at `QueryIterator::new`: one clone per
requested type id that has a store (missing types are skipped by the
`filter_map`-style loop). -/
def collectBitsets (comps : Components) (tids : List Nat) : List (Nat → Bool) :=
  tids.filterMap fun tid => (compsGet comps tid).map ComponentStore.entitiesBitset

/-- `QueryIterator::new`: when every requested type had a store (bitset
count matches), materialize every index below `entity_count` whose bit is
set in all collected bitsets; otherwise nothing. -/
def queryMatchingEntities (n : Nat) (comps : Components) (tids : List Nat) :
    List Nat :=
  if (collectBitsets comps tids).length = tids.length then
    (List.range n).filter fun i => (collectBitsets comps tids).all fun b => b i
  else []

/-- The index sequence yielded by iterating the `QueryIterator` to
exhaustion: `next` pops from the back of `matching_entities`, so the
precomputed list is yielded reversed. -/
def queryIteratorYield (n : Nat) (comps : Components) (tids : List Nat) :
    List Nat :=
  (queryMatchingEntities n comps tids).reverse

/-- `Accessor::fetch` for each requested type id at one row: the stored
payload (`none` marks the absent value on which the real fetch would
panic). -/
def fetchQ (comps : Components) (tids : List Nat) (i : Nat) : List (Option Int) :=
  tids.map fun tid =>
    match compsGet comps tid with
    | some st => st.componentData.getD i none
    | none => none

/-- `Ecs::query_one::<Q>`: `None` when some requested type has no store
(bitset count mismatch), else the first index below `entity_count` with
all presence bits set, paired with its fetch; `None` when no index
matches. -/
def queryOne (n : Nat) (comps : Components) (tids : List Nat) :
    Option (Nat × List (Option Int)) :=
  if (collectBitsets comps tids).length = tids.length then
    match (List.range n).find? (fun i => (collectBitsets comps tids).all fun b => b i) with
    | some i => some (i, fetchQ comps tids i)
    | none => none
  else none

/-- `SystemBundle`: the ordered list of registered systems, each a
callable mutating the `Ecs` (`Box<dyn FnMut(&mut Ecs)>`). -/
def SystemBundle := List (EcsB → EcsB)

/-- `SystemBundle::step(ecs)`: invoke every system once, in registration
order, each on the state the previous one left. -/
def SystemBundle.step (bundle : SystemBundle) (ecs : EcsB) : EcsB :=
  bundle.foldl (fun e s => s e) ecs

/-- The payload of type `tid` stored for entity `i` (`none` when the
store or the value is absent). -/
def valueAtC (comps : Components) (tid i : Nat) : Option Int :=
  match compsGet comps tid with
  | some st => st.componentData.getD i none
  | none => none

/-- The presence bit of type `tid` for entity `i` (`false` when the type
has no store). -/
def bitAtC (comps : Components) (tid i : Nat) : Bool :=
  match compsGet comps tid with
  | some st => st.entitiesBitset i
  | none => false

/-- One loop iteration of a `W<Value>` query pass: replace entity `i`'s
payload of type `tid` by `f` of it (the assignment through the `RefMut`
returned by `fetch`). -/
def updVal (tid : Nat) (f : Int → Int) (i : Nat) (comps : Components) :
    Components :=
  compsUpdate comps tid fun st =>
    { st with componentData :=
        st.componentData.set i ((st.componentData.getD i none).map f) }

/-- A system of the shape used in the C9 scenario: iterate
`query::<(W<Value>,)>()` and replace each matching entity's payload by
`f` of it (`v.0 += 35` / `v.0 -= 6`).  The iterator's matching list is
precomputed once from the state at iterator construction; `next_index` is
untouched. -/
def mapWMatching (tid : Nat) (f : Int → Int) (ecs : EcsB) : EcsB :=
  ⟨(queryIteratorYield ecs.entityCount ecs.components [tid]).foldl
      (fun cs i => updVal tid f i cs) ecs.components,
    ecs.nextIndex⟩

/-! ### C3: query completeness -/

theorem collectBitsets_all_present {comps : Components} :
    ∀ tids : List Nat, (∀ tid ∈ tids, (compsGet comps tid).isSome) →
      collectBitsets comps tids =
        tids.map fun tid => (fun i => bitAtC comps tid i) := by
  intro tids
  induction tids with
  | nil => intro _; rfl
  | cons tid rest ih =>
    intro h
    obtain ⟨st, hst⟩ := Option.isSome_iff_exists.mp (h tid (List.mem_cons_self _ _))
    have hbit : (fun i => bitAtC comps tid i) = st.entitiesBitset := by
      funext i
      unfold bitAtC
      rw [hst]
    unfold collectBitsets
    rw [List.filterMap_cons]
    unfold collectBitsets at ih
    rw [hst]
    show st.entitiesBitset :: _ = _
    rw [List.map_cons, hbit, ih (fun tid2 h2 => h tid2 (List.mem_cons_of_mem _ h2))]

theorem collectBitsets_length_lt {comps : Components} :
    ∀ tids : List Nat, (∃ tid ∈ tids, compsGet comps tid = none) →
      (collectBitsets comps tids).length < tids.length := by
  intro tids
  induction tids with
  | nil => intro h; simp at h
  | cons tid rest ih =>
    intro h
    unfold collectBitsets
    rw [List.filterMap_cons]
    cases hst : compsGet comps tid with
    | none =>
      have := List.length_filterMap_le
        (fun tid2 => (compsGet comps tid2).map ComponentStore.entitiesBitset) rest
      simp only [Option.map_none', List.length_cons]
      omega
    | some st =>
      obtain ⟨tid2, htid2, hnone⟩ := h
      rcases List.mem_cons.mp htid2 with rfl | hmem
      · rw [hst] at hnone
        exact absurd hnone (by simp)
      · have := ih ⟨tid2, hmem, hnone⟩
        unfold collectBitsets at this
        simp only [Option.map_some', List.length_cons]
        omega

theorem all_map_apply (l : List Nat) (g : Nat → Nat → Bool) (i : Nat) :
    ((l.map g).all fun b => b i) = l.all fun t => g t i := by
  induction l with
  | nil => rfl
  | cons t rest ih => simp only [List.map_cons, List.all_cons, ih]

theorem allBits_eq {comps : Components} {tids : List Nat}
    (hall : ∀ tid ∈ tids, (compsGet comps tid).isSome) (i : Nat) :
    ((collectBitsets comps tids).all fun b => b i) =
      tids.all fun tid => bitAtC comps tid i := by
  rw [collectBitsets_all_present tids hall]
  exact all_map_apply tids (fun tid i => bitAtC comps tid i) i

/-- C3: query completeness in the bitset-column model.  For an `Ecs` with
entity count `n` (within the bitset universe), when every requested type
has a backing `ComponentStore`, iterating `query` yields exactly the set
of indices `i < n` whose presence bits are set for all requested types —
each exactly once; when any requested type has no store, the iterator
yields nothing. -/
theorem c3_query_completeness (n : Nat) (comps : Components) (tids : List Nat)
    (hcap : n ≤ bitsetCapacity) :
    ((∀ tid ∈ tids, (compsGet comps tid).isSome) →
      (queryIteratorYield n comps tids).Nodup ∧
      ∀ i, i ∈ queryIteratorYield n comps tids ↔
        i < n ∧ ∀ tid ∈ tids, bitAtC comps tid i = true) ∧
    ((∃ tid ∈ tids, compsGet comps tid = none) →
      queryIteratorYield n comps tids = []) := by
  constructor
  · intro hall
    have hlen : (collectBitsets comps tids).length = tids.length := by
      rw [collectBitsets_all_present tids hall, List.length_map]
    constructor
    · unfold queryIteratorYield queryMatchingEntities
      rw [if_pos hlen]
      exact List.nodup_reverse.mpr (List.Nodup.filter _ (List.nodup_range n))
    · intro i
      unfold queryIteratorYield queryMatchingEntities
      rw [if_pos hlen]
      rw [List.mem_reverse, List.mem_filter, List.mem_range, allBits_eq hall i,
        List.all_eq_true]
  · intro h
    have hlt := collectBitsets_length_lt tids h
    unfold queryIteratorYield queryMatchingEntities
    rw [if_neg (by omega)]
    rfl

/-- Witness for C3: one store for type id 0 with bits 0 and 1 set;
querying `(R<0>,)` over 2 entities yields exactly indices 0 and 1, once
each. -/
theorem c3_query_completeness_witness :
    (queryIteratorYield 2
      [(0, ⟨[some 5, some 7], setBit (setBit (fun _ => false) 0) 1⟩)] [0]).Nodup ∧
    ∀ i, i ∈ queryIteratorYield 2
        [(0, ⟨[some 5, some 7], setBit (setBit (fun _ => false) 0) 1⟩)] [0] ↔
      i < 2 ∧ ∀ tid ∈ [0],
        bitAtC [(0, ⟨[some 5, some 7], setBit (setBit (fun _ => false) 0) 1⟩)] tid i = true :=
  (c3_query_completeness 2
    [(0, ⟨[some 5, some 7], setBit (setBit (fun _ => false) 0) 1⟩)] [0]
    (by decide)).1 (by decide)

/-! ### C8: query_one -/

theorem range_find?_eq_some {n : Nat} {p : Nat → Bool} {i : Nat} :
    (List.range n).find? p = some i ↔
      i < n ∧ p i = true ∧ ∀ j, j < i → p j = false := by
  rw [List.find?_eq_some_iff_getElem]
  constructor
  · rintro ⟨hp, k, hk, hki, hbefore⟩
    rw [List.getElem_range] at hki
    subst hki
    rw [List.length_range] at hk
    refine ⟨hk, hp, fun j hj => ?_⟩
    have := hbefore j hj
    rw [List.getElem_range] at this
    simpa using this
  · rintro ⟨hin, hp, hbefore⟩
    refine ⟨hp, i, by rwa [List.length_range], List.getElem_range _ _, fun j hj => ?_⟩
    have := hbefore j hj
    simp [List.getElem_range, this]

/-- C8: `query_one` returns `some (i, fetch i)` exactly for the smallest
entity index `i < entity_count` whose presence bits are set for every
requested type; it returns `none` (without fetching) when any requested
type has no `ComponentStore`, and `none` when no index matches. -/
theorem c8_query_one_first_match (n : Nat) (comps : Components)
    (tids : List Nat) (hcap : n ≤ bitsetCapacity) :
    ((∀ tid ∈ tids, (compsGet comps tid).isSome) →
      ∀ i, queryOne n comps tids = some (i, fetchQ comps tids i) ↔
        i < n ∧ (∀ tid ∈ tids, bitAtC comps tid i = true) ∧
          ∀ j, j < i → ¬ ∀ tid ∈ tids, bitAtC comps tid j = true) ∧
    ((∃ tid ∈ tids, compsGet comps tid = none) →
      queryOne n comps tids = none) ∧
    ((∀ i, i < n → ¬ ∀ tid ∈ tids, bitAtC comps tid i = true) →
      queryOne n comps tids = none) := by
  refine ⟨?_, ?_, ?_⟩
  · intro hall i
    have hlen : (collectBitsets comps tids).length = tids.length := by
      rw [collectBitsets_all_present tids hall, List.length_map]
    have hcond : ∀ j, (((collectBitsets comps tids).all fun b => b j) = true ↔
        ∀ tid ∈ tids, bitAtC comps tid j = true) := by
      intro j
      rw [allBits_eq hall j, List.all_eq_true]
    unfold queryOne
    rw [if_pos hlen]
    constructor
    · intro h
      cases hf : (List.range n).find?
          (fun j => (collectBitsets comps tids).all fun b => b j) with
      | none => rw [hf] at h; exact absurd h (by simp)
      | some i0 =>
        rw [hf] at h
        have hi0 : i0 = i := by
          have := Option.some.inj h
          exact congrArg Prod.fst this
        subst hi0
        obtain ⟨h1, h2, h3⟩ := range_find?_eq_some.mp hf
        refine ⟨h1, (hcond i0).mp h2, fun j hj hcontra => ?_⟩
        have := h3 j hj
        rw [← Bool.not_eq_true, hcond j] at this
        exact this hcontra
    · rintro ⟨h1, h2, h3⟩
      have hf : (List.range n).find?
          (fun j => (collectBitsets comps tids).all fun b => b j) = some i := by
        rw [range_find?_eq_some]
        refine ⟨h1, (hcond i).mpr h2, fun j hj => ?_⟩
        rw [← Bool.not_eq_true, hcond j]
        exact h3 j hj
      rw [hf]
  · intro h
    have hlt := collectBitsets_length_lt tids h
    unfold queryOne
    rw [if_neg (by omega)]
  · intro h
    unfold queryOne
    by_cases hlen : (collectBitsets comps tids).length = tids.length
    · rw [if_pos hlen]
      have hf : (List.range n).find?
          (fun j => (collectBitsets comps tids).all fun b => b j) = none := by
        rw [List.find?_eq_none]
        intro j hj hcontra
        have hjn : j < n := List.mem_range.mp hj
        by_cases hall : ∀ tid ∈ tids, (compsGet comps tid).isSome
        · rw [allBits_eq hall j, List.all_eq_true] at hcontra
          exact h j hjn hcontra
        · push_neg at hall
          obtain ⟨tid, htid, hnone⟩ := hall
          have := collectBitsets_length_lt tids
            ⟨tid, htid, Option.not_isSome_iff_eq_none.mp hnone⟩
          omega
      rw [hf]
    · rw [if_neg hlen]

/-- Witness for C8: one store for type 0 whose only set bit is 1; over 3
entities `query_one` returns index 1 with its fetch. -/
theorem c8_query_one_first_match_witness :
    queryOne 3 [(0, ⟨[none, some 9, none], setBit (fun _ => false) 1⟩)] [0] =
      some (1, fetchQ [(0, ⟨[none, some 9, none], setBit (fun _ => false) 1⟩)] [0] 1) :=
  (((c8_query_one_first_match 3
    [(0, ⟨[none, some 9, none], setBit (fun _ => false) 1⟩)] [0]
    (by decide)).1 (by decide)) 1).mpr (by decide)

/-! ### C9: system bundles -/

theorem compsGet_update_self :
    ∀ (comps : Components) (tid : Nat) (f : ComponentStore → ComponentStore),
      compsGet (compsUpdate comps tid f) tid = (compsGet comps tid).map f := by
  intro comps tid f
  induction comps with
  | nil => rfl
  | cons p rest ih =>
    obtain ⟨k, st⟩ := p
    show compsGet ((if k = tid then (k, f st) else (k, st)) :: compsUpdate rest tid f) tid = _
    by_cases hk : k = tid
    · rw [if_pos hk]
      show (if k = tid then some (f st) else compsGet (compsUpdate rest tid f) tid) = _
      rw [if_pos hk]
      show _ = (if k = tid then some st else compsGet rest tid).map f
      rw [if_pos hk]
      rfl
    · rw [if_neg hk]
      show (if k = tid then some st else compsGet (compsUpdate rest tid f) tid) = _
      rw [if_neg hk]
      show _ = (if k = tid then some st else compsGet rest tid).map f
      rw [if_neg hk]
      exact ih

theorem compsGet_update_other :
    ∀ (comps : Components) (tid tid2 : Nat) (f : ComponentStore → ComponentStore),
      tid2 ≠ tid →
      compsGet (compsUpdate comps tid f) tid2 = compsGet comps tid2 := by
  intro comps tid tid2 f hne
  induction comps with
  | nil => rfl
  | cons p rest ih =>
    obtain ⟨k, st⟩ := p
    show compsGet ((if k = tid then (k, f st) else (k, st)) :: compsUpdate rest tid f) tid2 = _
    by_cases hk : k = tid
    · rw [if_pos hk]
      show (if k = tid2 then some (f st) else compsGet (compsUpdate rest tid f) tid2) =
        (if k = tid2 then some st else compsGet rest tid2)
      rw [if_neg (by omega), if_neg (by omega)]
      exact ih
    · rw [if_neg hk]
      show (if k = tid2 then some st else compsGet (compsUpdate rest tid f) tid2) =
        (if k = tid2 then some st else compsGet rest tid2)
      by_cases hk2 : k = tid2
      · rw [if_pos hk2, if_pos hk2]
      · rw [if_neg hk2, if_neg hk2]
        exact ih

theorem getD_set_self (l : List (Option Int)) (i : Nat) (a : Option Int) :
    (l.set i a).getD i none = if i < l.length then a else none := by
  by_cases h : i < l.length
  · rw [if_pos h, List.getD_eq_getElem?_getD, List.getElem?_set_self h]
    rfl
  · rw [if_neg h, List.getD_eq_default]
    rw [List.length_set]
    omega

theorem getD_set_ne (l : List (Option Int)) (i j : Nat) (a : Option Int)
    (h : j ≠ i) :
    (l.set j a).getD i none = l.getD i none := by
  rw [List.getD_eq_getElem?_getD, List.getElem?_set_ne h,
    ← List.getD_eq_getElem?_getD]

theorem valueAtC_eq_some {comps : Components} {tid : Nat} {st : ComponentStore}
    (h : compsGet comps tid = some st) (i : Nat) :
    valueAtC comps tid i = st.componentData.getD i none := by
  unfold valueAtC
  rw [h]

theorem valueAtC_eq_none {comps : Components} {tid : Nat}
    (h : compsGet comps tid = none) (i : Nat) :
    valueAtC comps tid i = none := by
  unfold valueAtC
  rw [h]

theorem updVal_valueAt (tid : Nat) (f : Int → Int) (j : Nat)
    (comps : Components) (tid2 i : Nat) :
    valueAtC (updVal tid f j comps) tid2 i =
      if tid2 = tid ∧ i = j then (valueAtC comps tid2 i).map f
      else valueAtC comps tid2 i := by
  by_cases htid : tid2 = tid
  · rw [htid]
    cases hst : compsGet comps tid with
    | none =>
      have h1 : compsGet (updVal tid f j comps) tid = none := by
        unfold updVal
        rw [compsGet_update_self, hst]
        rfl
      rw [valueAtC_eq_none h1 i, valueAtC_eq_none hst i]
      split <;> rfl
    | some st =>
      have h1 : compsGet (updVal tid f j comps) tid =
          some { st with componentData :=
            st.componentData.set j ((st.componentData.getD j none).map f) } := by
        unfold updVal
        rw [compsGet_update_self, hst]
        rfl
      rw [valueAtC_eq_some h1 i, valueAtC_eq_some hst i]
      show (st.componentData.set j ((st.componentData.getD j none).map f)).getD i none = _
      by_cases hij : i = j
      · rw [hij, if_pos (show tid = tid ∧ j = j from ⟨rfl, rfl⟩), getD_set_self]
        by_cases hlen : j < st.componentData.length
        · rw [if_pos hlen]
        · rw [if_neg hlen, List.getD_eq_default _ _ (by omega), Option.map_none']
      · rw [getD_set_ne _ _ _ _ (fun hc => hij hc.symm),
          if_neg (fun hc => hij hc.2)]
  · have h1 : compsGet (updVal tid f j comps) tid2 = compsGet comps tid2 := by
      unfold updVal
      rw [compsGet_update_other _ _ _ _ htid]
    rw [if_neg (fun hc => htid hc.1)]
    unfold valueAtC
    rw [h1]

theorem updVal_bitsets (tid : Nat) (f : Int → Int) (j : Nat)
    (comps : Components) (tid2 : Nat) :
    (compsGet (updVal tid f j comps) tid2).map ComponentStore.entitiesBitset =
      (compsGet comps tid2).map ComponentStore.entitiesBitset := by
  by_cases htid : tid2 = tid
  · subst htid
    unfold updVal
    rw [compsGet_update_self]
    cases compsGet comps tid2 <;> rfl
  · unfold updVal
    rw [compsGet_update_other _ _ _ _ htid]

theorem foldl_updVal_bitsets (tid : Nat) (f : Int → Int) :
    ∀ (ids : List Nat) (comps : Components) (tid2 : Nat),
      (compsGet (ids.foldl (fun cs j => updVal tid f j cs) comps) tid2).map
          ComponentStore.entitiesBitset =
        (compsGet comps tid2).map ComponentStore.entitiesBitset := by
  intro ids
  induction ids with
  | nil => intro comps tid2; rfl
  | cons j rest ih =>
    intro comps tid2
    show (compsGet (rest.foldl _ (updVal tid f j comps)) tid2).map _ = _
    rw [ih (updVal tid f j comps) tid2, updVal_bitsets]

theorem foldl_updVal_other (tid : Nat) (f : Int → Int) :
    ∀ (ids : List Nat) (comps : Components) (tid2 : Nat), tid2 ≠ tid →
      compsGet (ids.foldl (fun cs j => updVal tid f j cs) comps) tid2 =
        compsGet comps tid2 := by
  intro ids
  induction ids with
  | nil => intro comps tid2 _; rfl
  | cons j rest ih =>
    intro comps tid2 hne
    show compsGet (rest.foldl _ (updVal tid f j comps)) tid2 = _
    rw [ih (updVal tid f j comps) tid2 hne]
    unfold updVal
    rw [compsGet_update_other _ _ _ _ hne]

theorem foldl_updVal_valueAt (tid : Nat) (f : Int → Int) :
    ∀ (ids : List Nat), ids.Nodup → ∀ (comps : Components) (tid2 i : Nat),
      valueAtC (ids.foldl (fun cs j => updVal tid f j cs) comps) tid2 i =
        if tid2 = tid ∧ i ∈ ids then (valueAtC comps tid2 i).map f
        else valueAtC comps tid2 i := by
  intro ids
  induction ids with
  | nil =>
    intro _ comps tid2 i
    rw [if_neg (fun hc => List.not_mem_nil i hc.2)]
    rfl
  | cons j rest ih =>
    intro hnd comps tid2 i
    have hj : j ∉ rest := (List.nodup_cons.mp hnd).1
    have hr : rest.Nodup := (List.nodup_cons.mp hnd).2
    show valueAtC (rest.foldl _ (updVal tid f j comps)) tid2 i = _
    rw [ih hr (updVal tid f j comps) tid2 i, updVal_valueAt]
    by_cases htid : tid2 = tid
    · by_cases hij : i = j
      · subst hij
        rw [if_neg (fun hc => hj hc.2), if_pos ⟨htid, rfl⟩,
          if_pos ⟨htid, List.mem_cons_self _ _⟩]
      · by_cases hmem : i ∈ rest
        · rw [if_pos ⟨htid, hmem⟩, if_neg (fun hc => hij hc.2),
            if_pos ⟨htid, List.mem_cons_of_mem _ hmem⟩]
        · rw [if_neg (fun hc => hmem hc.2), if_neg (fun hc => hij hc.2),
            if_neg (fun hc => by
              rcases List.mem_cons.mp hc.2 with h | h
              · exact hij h
              · exact hmem h)]
    · rw [if_neg (fun hc => htid hc.1), if_neg (fun hc => htid hc.1),
        if_neg (fun hc => htid hc.1)]

theorem queryYield_congr {comps1 comps2 : Components}
    (h : ∀ tid, (compsGet comps2 tid).map ComponentStore.entitiesBitset =
      (compsGet comps1 tid).map ComponentStore.entitiesBitset)
    (n : Nat) (tids : List Nat) :
    queryIteratorYield n comps2 tids = queryIteratorYield n comps1 tids := by
  have hcb : collectBitsets comps2 tids = collectBitsets comps1 tids := by
    unfold collectBitsets
    rw [show (fun tid => (compsGet comps2 tid).map ComponentStore.entitiesBitset) =
      fun tid => (compsGet comps1 tid).map ComponentStore.entitiesBitset from funext h]
  unfold queryIteratorYield queryMatchingEntities
  rw [hcb]

theorem queryYield_nodup (n : Nat) (comps : Components) (tids : List Nat) :
    (queryIteratorYield n comps tids).Nodup := by
  unfold queryIteratorYield queryMatchingEntities
  by_cases h : (collectBitsets comps tids).length = tids.length
  · rw [if_pos h]
    exact List.nodup_reverse.mpr (List.Nodup.filter _ (List.nodup_range n))
  · rw [if_neg h]
    exact List.nodup_nil

theorem mem_queryYield_single (n : Nat) (comps : Components) (tid i : Nat) :
    i ∈ queryIteratorYield n comps [tid] ↔
      i < n ∧ bitAtC comps tid i = true := by
  cases hst : compsGet comps tid with
  | some st =>
    have hall : ∀ t ∈ [tid], (compsGet comps t).isSome := by
      intro t ht
      rw [List.mem_singleton] at ht
      subst ht
      rw [hst]
      rfl
    have hlen : (collectBitsets comps [tid]).length = ([tid] : List Nat).length := by
      rw [collectBitsets_all_present _ hall, List.length_map]
    unfold queryIteratorYield queryMatchingEntities
    rw [if_pos hlen, List.mem_reverse, List.mem_filter, List.mem_range,
      allBits_eq hall i, List.all_eq_true]
    constructor
    · rintro ⟨h1, h2⟩
      exact ⟨h1, h2 tid (List.mem_singleton.mpr rfl)⟩
    · rintro ⟨h1, h2⟩
      refine ⟨h1, fun t ht => ?_⟩
      rw [List.mem_singleton] at ht
      subst ht
      exact h2
  | none =>
    have hlt : (collectBitsets comps [tid]).length < ([tid] : List Nat).length :=
      collectBitsets_length_lt [tid] ⟨tid, List.mem_singleton.mpr rfl, hst⟩
    unfold queryIteratorYield queryMatchingEntities
    rw [if_neg (by omega)]
    constructor
    · intro h
      exact absurd h (List.not_mem_nil i)
    · rintro ⟨_, h2⟩
      unfold bitAtC at h2
      rw [hst] at h2
      exact absurd h2 (by simp)

/-- C9: `SystemBundle::step` invokes every registered system exactly once
per call, strictly in registration order (`step (s :: rest) = step rest ∘
s`, `step [] = id`), and each system observes the mutations of earlier
ones; consequently a bundle whose first system adds 35 and whose second
subtracts 6 from every matching `Write<Value>` leaves, after one `step`,
every matching entity's value increased by exactly 29, every non-matching
value untouched, and every other component type's store untouched. -/
theorem c9_system_bundle_step (tid : Nat) (ecs : EcsB) :
    (∀ (s : EcsB → EcsB) (rest : List (EcsB → EcsB)) (e : EcsB),
      SystemBundle.step (s :: rest) e = SystemBundle.step rest (s e)) ∧
    (∀ e : EcsB, SystemBundle.step [] e = e) ∧
    (∀ i, i < ecs.entityCount → bitAtC ecs.components tid i = true →
      valueAtC (SystemBundle.step
          [mapWMatching tid (fun v => v + 35), mapWMatching tid (fun v => v - 6)]
          ecs).components tid i =
        (valueAtC ecs.components tid i).map (fun v => v + 29)) ∧
    (∀ i, ¬ (i < ecs.entityCount ∧ bitAtC ecs.components tid i = true) →
      valueAtC (SystemBundle.step
          [mapWMatching tid (fun v => v + 35), mapWMatching tid (fun v => v - 6)]
          ecs).components tid i = valueAtC ecs.components tid i) ∧
    (∀ tid2, tid2 ≠ tid →
      compsGet (SystemBundle.step
          [mapWMatching tid (fun v => v + 35), mapWMatching tid (fun v => v - 6)]
          ecs).components tid2 = compsGet ecs.components tid2) := by
  have hmapc : ∀ (f : Int → Int) (e : EcsB), (mapWMatching tid f e).components =
      (queryIteratorYield e.nextIndex e.components [tid]).foldl
        (fun cs j => updVal tid f j cs) e.components := fun _ _ => rfl
  have hmapn : ∀ (f : Int → Int) (e : EcsB),
      (mapWMatching tid f e).nextIndex = e.nextIndex := fun _ _ => rfl
  have hids2 : queryIteratorYield ecs.nextIndex
      ((queryIteratorYield ecs.nextIndex ecs.components [tid]).foldl
        (fun cs j => updVal tid (fun v => v + 35) j cs) ecs.components) [tid] =
      queryIteratorYield ecs.nextIndex ecs.components [tid] :=
    queryYield_congr (foldl_updVal_bitsets tid (fun v => v + 35)
      (queryIteratorYield ecs.nextIndex ecs.components [tid]) ecs.components)
      ecs.nextIndex [tid]
  have hstep : (SystemBundle.step
      [mapWMatching tid (fun v => v + 35), mapWMatching tid (fun v => v - 6)]
      ecs).components =
      (queryIteratorYield ecs.nextIndex ecs.components [tid]).foldl
        (fun cs j => updVal tid (fun v => v - 6) j cs)
        ((queryIteratorYield ecs.nextIndex ecs.components [tid]).foldl
          (fun cs j => updVal tid (fun v => v + 35) j cs) ecs.components) := by
    show (mapWMatching tid (fun v => v - 6)
      (mapWMatching tid (fun v => v + 35) ecs)).components = _
    rw [hmapc (fun v => v - 6) (mapWMatching tid (fun v => v + 35) ecs),
      hmapn (fun v => v + 35) ecs,
      hmapc (fun v => v + 35) ecs, hids2]
  have hnd := queryYield_nodup ecs.nextIndex ecs.components [tid]
  refine ⟨fun s rest e => rfl, fun e => rfl, ?_, ?_, ?_⟩
  · intro i hi hbit
    have hmem : i ∈ queryIteratorYield ecs.entityCount ecs.components [tid] :=
      (mem_queryYield_single _ _ _ _).mpr ⟨hi, hbit⟩
    rw [hstep, foldl_updVal_valueAt tid (fun v => v - 6) _ hnd _ tid i,
      if_pos ⟨rfl, hmem⟩,
      foldl_updVal_valueAt tid (fun v => v + 35) _ hnd _ tid i,
      if_pos ⟨rfl, hmem⟩, Option.map_map]
    rcases valueAtC ecs.components tid i with _ | v
    · rfl
    · show some (v + 35 - 6) = some (v + 29)
      congr 1
      omega
  · intro i hni
    have hmem : i ∉ queryIteratorYield ecs.entityCount ecs.components [tid] := by
      intro hc
      exact hni ((mem_queryYield_single _ _ _ _).mp hc)
    rw [hstep, foldl_updVal_valueAt tid (fun v => v - 6) _ hnd _ tid i,
      if_neg (fun hc => hmem hc.2),
      foldl_updVal_valueAt tid (fun v => v + 35) _ hnd _ tid i,
      if_neg (fun hc => hmem hc.2)]
  · intro tid2 hne
    rw [hstep, foldl_updVal_other tid (fun v => v - 6) _ _ _ hne,
      foldl_updVal_other tid (fun v => v + 35) _ _ _ hne]

/-- Witness for C9: a store for `Value` (type id 0) holding 12 at entity
0; one `step` of the add-35-then-subtract-6 bundle yields 41 = 12 + 29. -/
theorem c9_system_bundle_step_witness :
    valueAtC (SystemBundle.step
        [mapWMatching 0 (fun v => v + 35), mapWMatching 0 (fun v => v - 6)]
        ⟨[(0, ⟨[some 12], setBit (fun _ => false) 0⟩)], 1⟩).components 0 0 =
      (valueAtC ([(0, ⟨[some 12], setBit (fun _ => false) 0⟩)] : Components) 0 0).map
        (fun v => v + 29) :=
  (c9_system_bundle_step 0 ⟨[(0, ⟨[some 12], setBit (fun _ => false) 0⟩)], 1⟩).2.2.1
    0 (by decide) (by decide)

/-! ### C10: the bitset/value coherence invariant -/

/-- The public mutating operations of the bitset-column `Ecs`. -/
inductive EcsOp where
  | insert (bundle : List (Nat × Int)) : EcsOp
  | removeComponent (tid i : Nat) : EcsOp
  | deleteByQuery (tids : List Nat) : EcsOp

def applyOp : EcsOp → EcsB → EcsB
  | .insert bundle, e => (e.insert bundle).1
  | .removeComponent tid i, e => e.removeComponent tid i
  | .deleteByQuery tids, e => e.deleteByQuery tids

def applyOps (e : EcsB) : List EcsOp → EcsB
  | [] => e
  | op :: rest => applyOps (applyOp op e) rest

/-- Panic-freedom side condition of one operation: inserts must stay
within the fixed bitset universe, and `remove_component` must target an
existing entity index (`component_data[i]` would otherwise be out of
bounds). -/
def validOp : EcsOp → EcsB → Bool
  | .insert _, e => e.nextIndex < bitsetCapacity
  | .removeComponent _ i, e => i < e.nextIndex
  | .deleteByQuery _, _ => true

def validSeq (e : EcsB) : List EcsOp → Bool
  | [] => true
  | op :: rest => validOp op e && validSeq (applyOp op e) rest

/-- Coherence of one `ComponentStore` with the entity count `n`: the data
vector has length exactly `n`, set bits point below `n`, and below `n` a
bit is set exactly when the value is present. -/
def storeInv (st : ComponentStore) (n : Nat) : Prop :=
  st.componentData.length = n ∧
  (∀ i, st.entitiesBitset i = true → i < n) ∧
  (∀ i, i < n → (st.entitiesBitset i = true ↔ (st.componentData.getD i none).isSome))

/-- The C10 invariant of a whole `Ecs` state. -/
def EcsInv (e : EcsB) : Prop :=
  e.nextIndex ≤ bitsetCapacity ∧ ∀ p ∈ e.components, storeInv p.2 e.nextIndex

theorem getD_replicate_none (k i : Nat) :
    (List.replicate k (none : Option Int)).getD i none = none := by
  rw [List.getD_eq_getElem?_getD, List.getElem?_replicate]
  split <;> rfl

theorem getD_append_singleton_left (l : List (Option Int)) (x : Option Int)
    (i : Nat) (h : i < l.length) :
    (l ++ [x]).getD i none = l.getD i none := by
  rw [List.getD_eq_getElem?_getD, List.getElem?_append_left h,
    ← List.getD_eq_getElem?_getD]

theorem getD_append_singleton_at (l : List (Option Int)) (x : Option Int) :
    (l ++ [x]).getD l.length none = x := by
  rw [List.getD_eq_getElem?_getD, List.getElem?_concat_length]
  rfl

theorem storeInv_push {st : ComponentStore} {n : Nat} (h : storeInv st n) :
    storeInv { st with componentData := st.componentData ++ [none] } (n + 1) := by
  obtain ⟨hlen, hlt, hiff⟩ := h
  refine ⟨by rw [List.length_append, hlen]; rfl, fun i hb => by have := hlt i hb; omega, ?_⟩
  intro i hi
  show st.entitiesBitset i = true ↔ ((st.componentData ++ [none]).getD i none).isSome
  by_cases hin : i < n
  · rw [getD_append_singleton_left _ _ _ (by omega)]
    exact hiff i hin
  · have hieq : i = n := by omega
    subst hieq
    rw [← hlen, getD_append_singleton_at]
    constructor
    · intro hb
      have := hlt _ hb
      omega
    · intro hc
      exact absurd hc (by simp)

theorem storeInv_storeLast {st : ComponentStore} {n : Nat} (v : Int)
    (h : storeInv st (n + 1)) :
    storeInv (storeLast st v n) (n + 1) := by
  obtain ⟨hlen, hlt, hiff⟩ := h
  refine ⟨?_, ?_, ?_⟩
  · show (st.componentData.set (st.componentData.length - 1) (some v)).length = n + 1
    rw [List.length_set]
    exact hlen
  · intro i hb
    show i < n + 1
    by_cases hin : i = n
    · omega
    · have : st.entitiesBitset i = true := by
        have hb2 : setBit st.entitiesBitset n i = true := hb
        unfold setBit at hb2
        rwa [if_neg hin] at hb2
      exact hlt i this
  · intro i hi
    show setBit st.entitiesBitset n i = true ↔
      ((st.componentData.set (st.componentData.length - 1) (some v)).getD i none).isSome
    have hn1 : st.componentData.length - 1 = n := by omega
    rw [hn1]
    by_cases hin : i = n
    · subst hin
      unfold setBit
      rw [if_pos rfl, getD_set_self, if_pos (by omega)]
      simp
    · unfold setBit
      rw [if_neg hin, getD_set_ne _ _ _ _ (fun hc => hin hc.symm)]
      exact hiff i hi

theorem storeInv_fresh (n : Nat) (v : Int) :
    storeInv (storeLast (ComponentStore.withSize n) v n) (n + 1) := by
  refine ⟨?_, ?_, ?_⟩
  · show ((List.replicate (n + 1) (none : Option Int)).set
      ((List.replicate (n + 1) (none : Option Int)).length - 1) (some v)).length = n + 1
    rw [List.length_set, List.length_replicate]
  · intro i hb
    have hb2 : setBit (fun _ => false) n i = true := hb
    unfold setBit at hb2
    by_cases hin : i = n
    · omega
    · rw [if_neg hin] at hb2
      exact absurd hb2 (by simp)
  · intro i hi
    show setBit (fun _ => false) n i = true ↔
      (((List.replicate (n + 1) (none : Option Int)).set
        ((List.replicate (n + 1) (none : Option Int)).length - 1) (some v)).getD i none).isSome
    rw [List.length_replicate]
    have hn1 : n + 1 - 1 = n := by omega
    rw [hn1]
    by_cases hin : i = n
    · subst hin
      unfold setBit
      rw [if_pos rfl, getD_set_self, if_pos (by rw [List.length_replicate]; omega)]
      simp
    · unfold setBit
      rw [if_neg hin, getD_set_ne _ _ _ _ (fun hc => hin hc.symm),
        getD_replicate_none]
      simp

theorem storeInv_removeFromEntity {st : ComponentStore} {n : Nat} (r : Nat)
    (h : storeInv st n) :
    storeInv (st.removeFromEntity r) n := by
  obtain ⟨hlen, hlt, hiff⟩ := h
  refine ⟨?_, ?_, ?_⟩
  · show (st.componentData.set r none).length = n
    rw [List.length_set]
    exact hlen
  · intro i hb
    have hb2 : unsetBit st.entitiesBitset r i = true := hb
    unfold unsetBit at hb2
    by_cases hir : i = r
    · rw [if_pos hir] at hb2
      exact absurd hb2 (by simp)
    · rw [if_neg hir] at hb2
      exact hlt i hb2
  · intro i hi
    show unsetBit st.entitiesBitset r i = true ↔
      ((st.componentData.set r none).getD i none).isSome
    by_cases hir : i = r
    · subst hir
      unfold unsetBit
      rw [if_pos rfl, getD_set_self]
      constructor
      · intro hc
        exact absurd hc (by simp)
      · intro hc
        rcases Nat.lt_or_ge i st.componentData.length with hl | hl
        · rw [if_pos hl] at hc
          exact absurd hc (by simp)
        · rw [if_neg (by omega)] at hc
          exact absurd hc (by simp)
    · unfold unsetBit
      rw [if_neg hir, getD_set_ne _ _ _ _ (fun hc => hir hc.symm)]
      exact hiff i hi

theorem storeOne_inv {comps : Components} {n : Nat}
    (h : ∀ p ∈ comps, storeInv p.2 (n + 1)) (tid : Nat) (v : Int) :
    ∀ p ∈ storeOne comps tid v n, storeInv p.2 (n + 1) := by
  unfold storeOne
  cases compsGet comps tid with
  | some st0 =>
    intro p hp
    unfold compsUpdate at hp
    rw [List.mem_map] at hp
    obtain ⟨q, hq, hpq⟩ := hp
    by_cases hk : q.1 = tid
    · rw [if_pos hk] at hpq
      subst hpq
      exact storeInv_storeLast v (h q hq)
    · rw [if_neg hk] at hpq
      subst hpq
      exact h q hq
  | none =>
    intro p hp
    rw [List.mem_append] at hp
    rcases hp with hp | hp
    · exact h p hp
    · rw [List.mem_singleton] at hp
      subst hp
      exact storeInv_fresh n v

theorem storeComponents_inv {comps : Components} {n : Nat}
    (h : ∀ p ∈ comps, storeInv p.2 n) (bundle : List (Nat × Int)) :
    ∀ p ∈ storeComponents bundle comps n, storeInv p.2 (n + 1) := by
  unfold storeComponents
  have hbase : ∀ p ∈ compsMapAll comps
      (fun st => { st with componentData := st.componentData ++ [none] }),
      storeInv p.2 (n + 1) := by
    intro p hp
    unfold compsMapAll at hp
    rw [List.mem_map] at hp
    obtain ⟨q, hq, hpq⟩ := hp
    subst hpq
    exact storeInv_push (h q hq)
  generalize compsMapAll comps _ = base at hbase ⊢
  clear h
  induction bundle generalizing base with
  | nil => exact hbase
  | cons tv rest ih =>
    show ∀ p ∈ rest.foldl (fun cs tv => storeOne cs tv.1 tv.2 n)
      (storeOne base tv.1 tv.2 n), storeInv p.2 (n + 1)
    exact ih _ (storeOne_inv hbase tv.1 tv.2)

theorem ecsInv_new : EcsInv EcsB.new :=
  ⟨by decide, fun p hp => absurd hp (List.not_mem_nil p)⟩

theorem ecsInv_insert {e : EcsB} (h : EcsInv e) (bundle : List (Nat × Int))
    (hcap : e.nextIndex < bitsetCapacity) :
    EcsInv (e.insert bundle).1 := by
  refine ⟨by show e.nextIndex + 1 ≤ bitsetCapacity; omega, ?_⟩
  show ∀ p ∈ storeComponents bundle e.components e.nextIndex, storeInv p.2 (e.nextIndex + 1)
  exact storeComponents_inv h.2 bundle

theorem ecsInv_removeComponent {e : EcsB} (h : EcsInv e) (tid i : Nat) :
    EcsInv (e.removeComponent tid i) := by
  unfold EcsB.removeComponent
  cases compsGet e.components tid with
  | some st =>
    refine ⟨h.1, ?_⟩
    intro p hp
    unfold compsUpdate at hp
    rw [List.mem_map] at hp
    obtain ⟨q, hq, hpq⟩ := hp
    by_cases hk : q.1 = tid
    · rw [if_pos hk] at hpq
      subst hpq
      exact storeInv_removeFromEntity i (h.2 q hq)
    · rw [if_neg hk] at hpq
      subst hpq
      exact h.2 q hq
  | none => exact h

theorem ecsInv_deleteByQuery {e : EcsB} (h : EcsInv e) (tids : List Nat) :
    EcsInv (e.deleteByQuery tids) := by
  refine ⟨h.1, ?_⟩
  show ∀ p ∈ (queryMatchingIds e.entityCount e.components tids).foldl
      (fun comps i => compsMapAll comps fun st => st.removeFromEntity i)
      e.components, storeInv p.2 e.nextIndex
  generalize queryMatchingIds e.entityCount e.components tids = ids
  have h2 := h.2
  generalize e.components = base at h2 ⊢
  induction ids generalizing base with
  | nil => exact h2
  | cons j rest ih =>
    show ∀ p ∈ rest.foldl _ (compsMapAll base fun st => st.removeFromEntity j),
      storeInv p.2 e.nextIndex
    refine ih _ ?_
    intro p hp
    unfold compsMapAll at hp
    rw [List.mem_map] at hp
    obtain ⟨q, hq, hpq⟩ := hp
    subst hpq
    exact storeInv_removeFromEntity j (h2 q hq)

/-- C10: after any valid sequence of `insert`, `remove_component` and
`delete_by_query` operations starting from `Ecs::new()`, every
`ComponentStore` in the component map satisfies: its `component_data` has
length exactly `entity_count()` (so every accessor fetch at a present
index is in bounds), set presence bits point below `entity_count()`, and
for every `i < entity_count()` the presence bit `i` is set iff
`component_data[i]` is `Some`. -/
theorem c10_bitset_value_coherence (ops : List EcsOp)
    (h : validSeq EcsB.new ops = true) :
    EcsInv (applyOps EcsB.new ops) := by
  have main : ∀ (ops : List EcsOp) (e : EcsB), EcsInv e → validSeq e ops = true →
      EcsInv (applyOps e ops) := by
    intro ops
    induction ops with
    | nil => intro e he _; exact he
    | cons op rest ih =>
      intro e he hv
      have hv2 : validOp op e = true ∧ validSeq (applyOp op e) rest = true := by
        have h3 : (validOp op e && validSeq (applyOp op e) rest) = true := hv
        simpa [Bool.and_eq_true] using h3
      refine ih (applyOp op e) ?_ hv2.2
      cases op with
      | insert bundle =>
        refine ecsInv_insert he bundle ?_
        have hvo : validOp (EcsOp.insert bundle) e = true := hv2.1
        unfold validOp at hvo
        exact of_decide_eq_true hvo
      | removeComponent tid i => exact ecsInv_removeComponent he tid i
      | deleteByQuery tids => exact ecsInv_deleteByQuery he tids
  exact main ops EcsB.new ecsInv_new h

/-- Witness for C10: insert two entities (types 0 and 0, 1 respectively),
remove type 0 from entity 0, then delete everything matching type 1. -/
theorem c10_bitset_value_coherence_witness :
    EcsInv (applyOps EcsB.new
      [EcsOp.insert [(0, 5)], EcsOp.insert [(0, 7), (1, 3)],
       EcsOp.removeComponent 0 0, EcsOp.deleteByQuery [1]]) :=
  c10_bitset_value_coherence
    [EcsOp.insert [(0, 5)], EcsOp.insert [(0, 7), (1, 3)],
     EcsOp.removeComponent 0 0, EcsOp.deleteByQuery [1]]
    (by decide)

end Bcol

end Tuber
